import Mathlib

/-!
Verification development for `backup.py`, a script that maintains an
incremental backup history in a destination directory.

The Python source is embedded shallowly:

* the timestamp codec (`time.strptime` with format `%Y-%m-%dT%H:%M:%S`
  followed by `time.mktime`, and `time.strftime`) becomes executable
  functions on `List Char` and `Int` seconds.  The local timezone is
  modelled as UTC with no DST, so `mktime`/`strftime` are the plain
  civil-calendar conversions;
* the lock manager `lock_dest` and the orchestrator `main` become state
  transformers over small filesystem states, with Python exceptions made
  explicit (`PyErr`), including the Python 3 fact that `IOError` is an
  alias of `OSError` whose subclasses include `FileNotFoundError`,
  `FileExistsError` and `PermissionError`;
* the retention passes `remove_old_backups` and
  `prune_incomplete_backups` become folds over a directory listing.
-/

set_option autoImplicit false

namespace Backup

/-! ## Timestamp codec

`TIME_FORMAT = '%Y-%m-%dT%H:%M:%S'`, `TIME_FORMAT_LENGTH = 19`.

CPython's `_strptime` compiles this format to the regex
`(\d\d\d\d)-(1[0-2]|0[1-9]|[1-9])-(3[01]|[12]\d|0[1-9]|[1-9])T`
`(2[0-3]|[0-1]\d|\d):([0-5]\d|\d):(6[0-1]|[0-5]\d|\d)` anchored at both
ends.  Because every separator is a non-digit, a match decomposes the
input into maximal digit runs; the functions below mirror exactly the
lengths and value ranges each run may take.  `time.mktime` normalises
out-of-range fields (e.g. February 31, leap second 61) by plain carrying,
which the linear second arithmetic below reproduces. -/

def TIME_FORMAT_LENGTH : Nat := 19

def fieldVal (l : List Char) : Nat :=
  l.foldl (fun a c => a * 10 + (c.toNat - 48)) 0

/-- `%Y`: exactly four digits. -/
def yearOk (l : List Char) : Bool := l.length == 4

/-- `%m`: `1[0-2]|0[1-9]|[1-9]`, i.e. one digit `1-9` or two digits `01-12`. -/
def monthOk (l : List Char) : Bool :=
  match l with
  | [c] => c != '0'
  | [_, _] => decide (1 ≤ fieldVal l ∧ fieldVal l ≤ 12)
  | _ => false

/-- `%d`: `3[01]|[12]\d|0[1-9]|[1-9]`, i.e. one digit `1-9` or two digits `01-31`. -/
def dayOk (l : List Char) : Bool :=
  match l with
  | [c] => c != '0'
  | [_, _] => decide (1 ≤ fieldVal l ∧ fieldVal l ≤ 31)
  | _ => false

/-- `%H`: `2[0-3]|[0-1]\d|\d`, i.e. one digit or two digits `00-23`. -/
def hourOk (l : List Char) : Bool :=
  match l with
  | [_] => true
  | [_, _] => decide (fieldVal l ≤ 23)
  | _ => false

/-- `%M`: `[0-5]\d|\d`, i.e. one digit or two digits `00-59`. -/
def minuteOk (l : List Char) : Bool :=
  match l with
  | [_] => true
  | [_, _] => decide (fieldVal l ≤ 59)
  | _ => false

/-- `%S`: `6[0-1]|[0-5]\d|\d`, i.e. one digit or two digits `00-61`. -/
def secondOk (l : List Char) : Bool :=
  match l with
  | [_] => true
  | [_, _] => decide (fieldVal l ≤ 61)
  | _ => false

/-- `time.strptime(s, TIME_FORMAT)`: returns the six broken-down fields,
or `none` where Python raises `ValueError`. -/
def strptimeTF (s : List Char) : Option (Nat × Nat × Nat × Nat × Nat × Nat) :=
  let (ys, r1) := s.span Char.isDigit
  if !yearOk ys then none else
  match r1 with
  | '-' :: r2 =>
    let (ms, r3) := r2.span Char.isDigit
    if !monthOk ms then none else
    match r3 with
    | '-' :: r4 =>
      let (ds, r5) := r4.span Char.isDigit
      if !dayOk ds then none else
      match r5 with
      | 'T' :: r6 =>
        let (hs, r7) := r6.span Char.isDigit
        if !hourOk hs then none else
        match r7 with
        | ':' :: r8 =>
          let (mins, r9) := r8.span Char.isDigit
          if !minuteOk mins then none else
          match r9 with
          | ':' :: r10 =>
            let (ss, r11) := r10.span Char.isDigit
            if !secondOk ss then none else
            match r11 with
            | [] => some (fieldVal ys, fieldVal ms, fieldVal ds,
                          fieldVal hs, fieldVal mins, fieldVal ss)
            | _ => none
          | _ => none
        | _ => none
      | _ => none
    | _ => none
  | _ => none

/-- Days since 1970-01-01 of a civil date (Howard Hinnant's algorithm).
Linear in `d`, matching `mktime`'s carry-based normalisation of
out-of-range days. -/
def daysFromCivil (y m d : Nat) : Int :=
  let y' : Int := if m ≤ 2 then (y : Int) - 1 else (y : Int)
  let era : Int := y'.ediv 400
  let yoe : Int := y' - era * 400
  let mp : Int := ((m : Int) + 9).emod 12
  let doy : Int := (153 * mp + 2).ediv 5 + (d : Int) - 1
  let doe : Int := yoe * 365 + yoe.ediv 4 - yoe.ediv 100 + doy
  era * 146097 + doe - 719468

/-- `time.mktime` on a broken-down time, with local time modelled as UTC. -/
def mktimeUTC : Nat × Nat × Nat × Nat × Nat × Nat → Int
  | (y, m, d, h, mi, s) =>
    86400 * daysFromCivil y m d + 3600 * (h : Int) + 60 * (mi : Int) + (s : Int)

/-- `time.mktime(time.strptime(s, TIME_FORMAT))`, or `none` where Python
raises `ValueError`.  Used on the lock record's `start_time` string. -/
def parse_time_full (s : List Char) : Option Int :=
  (strptimeTF s).map mktimeUTC

/-- Python's `s[-n:]`: the trailing `n` characters (the whole string when
it is shorter than `n`). -/
def lastN (n : Nat) (l : List Char) : List Char :=
  (l.reverse.take n).reverse

/-- `parse_backup_time` (backup.py lines 126-136): parse the timestamp
from the trailing `TIME_FORMAT_LENGTH` characters of a backup directory
path, returning `none` where the Python function returns `None`. -/
def parse_backup_time (path : List Char) : Option Int :=
  parse_time_full (lastN TIME_FORMAT_LENGTH path)

/-- Inverse civil-calendar conversion, for `strftime`. -/
def civilFromDays (z0 : Int) : Int × Int × Int :=
  let z := z0 + 719468
  let era : Int := z.ediv 146097
  let doe : Int := z - era * 146097
  let yoe : Int := (doe - doe.ediv 1460 + doe.ediv 36524 - doe.ediv 146096).ediv 365
  let y : Int := yoe + era * 400
  let doy : Int := doe - (365 * yoe + yoe.ediv 4 - yoe.ediv 100)
  let mp : Int := (5 * doy + 2).ediv 153
  let d : Int := doy - (153 * mp + 2).ediv 5 + 1
  let m : Int := mp + (if mp < 10 then 3 else -9)
  (if m ≤ 2 then y + 1 else y, m, d)

def digitChar (n : Nat) : Char := Char.ofNat (48 + n)

def pad2 (n : Nat) : List Char := [digitChar (n / 10 % 10), digitChar (n % 10)]

def pad4 (n : Nat) : List Char :=
  [digitChar (n / 1000 % 10), digitChar (n / 100 % 10),
   digitChar (n / 10 % 10), digitChar (n % 10)]

/-- `time.strftime(TIME_FORMAT)` at instant `t` (seconds), local time
modelled as UTC; fixed width for years 1000-9999. -/
def formatTs (t : Int) : List Char :=
  let days := t.ediv 86400
  let sod := (t.emod 86400).toNat
  let c := civilFromDays days
  pad4 c.1.toNat ++ '-' :: pad2 c.2.1.toNat ++ '-' :: pad2 c.2.2.toNat ++
    'T' :: pad2 (sod / 3600) ++ ':' :: pad2 (sod % 3600 / 60) ++ ':' :: pad2 (sod % 60)

/-- `str.startswith`. -/
def startswith (p s : List Char) : Bool := s.take p.length == p

def backupPref : List Char := "backup-".toList

def incompletePref : List Char := "incomplete-".toList

def currentName : List Char := "current".toList

/-! ## Python exceptions

The classes this program can raise or catch.  In Python 3 `IOError` is an
alias of `OSError`, and `FileNotFoundError`, `FileExistsError` and
`PermissionError` are subclasses of `OSError`; `ValueError` (including
`json.JSONDecodeError`) and `KeyError` are not. -/

inductive PyErr where
  /-- `FileNotFoundError` (an `OSError`). -/
  | fileNotFound
  /-- The `IOError("Could not acquire lock ...")` raised by `lock_dest`. -/
  | acquireError
  /-- `PermissionError` (an `OSError`), e.g. from `os.mkdir`. -/
  | permissionError
  /-- A plain `OSError` such as `ENOSPC` while writing the info file. -/
  | diskFull
  /-- An `OSError` raised by `shutil.rmtree` partway through a deletion. -/
  | removeError
  /-- `ValueError`, also covering `json.JSONDecodeError`. -/
  | valueError
  /-- `KeyError`, from `data['start_time']` on a record without that key. -/
  | keyError
  /-- `sh.ErrorReturnCode_<c>`: the `sh` library raises this when the
  wrapped command exits with the non-zero status `c` and no `_ok_code`
  was passed.  It subclasses `sh.ErrorReturnCode` and `Exception`, not
  `OSError`. -/
  | errorReturnCode (c : Int)
  deriving DecidableEq, Repr

/-- Whether `except IOError` catches the exception: in Python 3 this is
exactly membership in the `OSError` hierarchy. -/
def isIOError : PyErr → Bool
  | .valueError => false
  | .keyError => false
  | .errorReturnCode _ => false
  | _ => true

/-- Result of running a fragment of Python code: a value, or a raised
exception propagating. -/
inductive PyResult (α : Type) where
  | ok (a : α)
  | exn (e : PyErr)
  deriving DecidableEq, Repr

/-! ## Lock manager (`lock_dest`, backup.py lines 60-124)

The marker is `dest/backup.lock`, a directory containing one file `info`.
Its state is `Option (Option InfoContent)`: `none` = no marker directory,
`some none` = directory without an `info` file, `some (some c)` =
directory whose `info` file holds `c`. -/

inductive InfoContent where
  /-- Valid JSON object with a string field `start_time`. -/
  | json (start_time : List Char)
  /-- Content that `json.load` fails to parse (raises `JSONDecodeError`). -/
  | badJson
  /-- Valid JSON but without a `start_time` key (`data['start_time']`
  raises `KeyError`). -/
  | noStartTime
  deriving DecidableEq, Repr

/-- The marker state: see `InfoContent`. -/
abbrev LockState := Option (Option InfoContent)

/-- The lock-manager view of the world: the marker state plus two
environment fault switches for the I/O the function performs (`os.mkdir`
denied; the `info` write failing with disk full). -/
structure LockFS where
  marker : LockState
  mkdirDenied : Bool
  infoWriteFails : Bool
  deriving DecidableEq, Repr

/-- The cleanup closure returned by `lock_dest` (backup.py lines 120-124):

`os.path.exists(info_path) and os.path.exists(lock_dir) and shutil.rmtree(lock_dir)`

It removes the marker directory only when both the directory and its
`info` file still exist; otherwise the `and` chain short-circuits and
nothing happens (and nothing is raised). -/
def releaseLock : LockState → LockState
  | some (some _) => none
  | st => st

/-- `lock_dest(dest)` (backup.py lines 60-124).  Parameters: the current
state, the system boot time (`uptime --since`, already parsed to
seconds), and the string `time.strftime(TIME_FORMAT)` at call time.

Phase 1 (lines 75-102): try to read and parse the `info` record,
catching only `FileNotFoundError`; a stale record (`boot_time >
lock_time`) gets its marker directory removed.  Phase 2 (lines 104-116):
`os.mkdir`, converting `FileExistsError` into the `IOError` that signals
Busy, then write the fresh record. -/
def lock_dest (fs : LockFS) (boot_time : Int) (now_str : List Char) :
    PyResult Unit × LockFS :=
  let phase1 : PyResult LockFS :=
    match fs.marker with
    | none => .ok fs                     -- open: FileNotFoundError, caught
    | some none => .ok fs                -- open: FileNotFoundError, caught
    | some (some .badJson) => .exn .valueError      -- json.load raises
    | some (some .noStartTime) => .exn .keyError    -- data['start_time'] raises
    | some (some (.json st)) =>
      match parse_time_full st with
      | none => .exn .valueError                    -- time.strptime raises
      | some lock_time =>
        if boot_time > lock_time then
          .ok { fs with marker := none }            -- shutil.rmtree(lock_dir)
        else
          .ok fs
  match phase1 with
  | .exn e => (.exn e, fs)
  | .ok fs1 =>
    match fs1.marker with
    | some m => (.exn .acquireError, { fs1 with marker := some m })
    | none =>
      if fs1.mkdirDenied then
        (.exn .permissionError, fs1)
      else if fs1.infoWriteFails then
        (.exn .diskFull, { fs1 with marker := some none })
      else
        (.ok (), { fs1 with marker := some (some (.json now_str)) })

/-- Outcome of `main`'s lock phase (backup.py lines 271-277). -/
inductive LockPhase where
  /-- `except IOError`: log "Backup already in progress", `return 0`.
  The transfer is never started. -/
  | busyExit (fs : LockFS)
  /-- Lock acquired; `main` continues towards the transfer. -/
  | proceed (fs : LockFS)
  /-- An exception `except IOError` does not catch propagates out of
  `main`: the process dies with a traceback (exit status 1), before any
  transfer. -/
  | fatal (e : PyErr) (fs : LockFS)
  deriving DecidableEq, Repr

/-- Lines 271-277 of `main`: call `lock_dest`, catching `IOError`. -/
def main_lock_phase (fs : LockFS) (boot_time : Int) (now_str : List Char) :
    LockPhase :=
  match lock_dest fs boot_time now_str with
  | (.ok _, fs') => .proceed fs'
  | (.exn e, fs') => if isIOError e then .busyExit fs' else .fatal e fs'

/-! ## Destination directory model

The immediate children of the destination directory, as `os.listdir`
returns them.  Entry names contain no path separator.  A symlink entry
records its target; `os.path.isdir` is modelled as true exactly for
directory entries (symlinks in this model stand for links whose targets
are not directories — the `current` link is in any case skipped by both
retention passes on its name alone). -/

inductive EntryKind where
  | dir
  | symlink (target : List Char)
  | file
  deriving DecidableEq, Repr

def EntryKind.isDir : EntryKind → Bool
  | .dir => true
  | _ => false

structure Entry where
  name : List Char
  kind : EntryKind
  deriving DecidableEq, Repr

/-- The destination directory: its listing, the set of names on which
`shutil.rmtree` fails (environment faults), and the lock-marker state
(the `backup.lock` directory; kept apart from `entries` — its name
matches neither retention prefix, so the passes ignore it). -/
structure DestFS where
  entries : List Entry
  failing : List (List Char)
  marker : LockState
  deriving DecidableEq, Repr

def listdir (fs : DestFS) : List (List Char) := fs.entries.map Entry.name

def findEntry (fs : DestFS) (n : List Char) : Option Entry :=
  fs.entries.find? (fun e => e.name == n)

/-- `os.path.isdir(os.path.join(dest, n))`. -/
def isdir (fs : DestFS) (n : List Char) : Bool :=
  match findEntry fs n with
  | some e => e.kind.isDir
  | none => false

/-- `os.path.lexists`. -/
def lexists (fs : DestFS) (n : List Char) : Bool := (listdir fs).contains n

/-- Remove every entry named `n` (with distinct names: the one entry). -/
def delName (fs : DestFS) (n : List Char) : DestFS :=
  { fs with entries := fs.entries.filter (fun e => !(e.name == n)) }

/-- `shutil.rmtree(os.path.join(dest, n))`: raises `OSError` on names in
the fault set, otherwise removes the entry. -/
def rmtreeFS (fs : DestFS) (n : List Char) : PyResult DestFS :=
  if fs.failing.contains n then .exn .removeError else .ok (delName fs n)

/-- `os.rename(old, new)`: fails with `FileNotFoundError` when `old` is
absent and with an `OSError` when `new` already exists (directory
renames onto an existing name); otherwise renames in place. -/
def renameFS (fs : DestFS) (old new : List Char) : PyResult DestFS :=
  match findEntry fs old with
  | none => .exn .fileNotFound
  | some _ =>
    if (listdir fs).contains new then .exn .diskFull
    else .ok { fs with
      entries := fs.entries.map (fun e =>
        if e.name == old then { e with name := new } else e) }

/-- `os.unlink`. -/
def unlinkFS (fs : DestFS) (n : List Char) : DestFS := delName fs n

/-- `os.symlink(target, n)`: raises `FileExistsError` when `n` exists. -/
def symlinkFS (fs : DestFS) (target n : List Char) : PyResult DestFS :=
  if (listdir fs).contains n then .exn .diskFull
  else .ok { fs with entries := fs.entries ++ [⟨n, .symlink target⟩] }

/-! ## Age-based pruning (`remove_old_backups`, backup.py lines 138-176)

The loop takes a snapshot of `os.listdir(dest)` and, for each name that
is a directory starting with `BACKUP_PREFIX`, parses the trailing
timestamp of the full path; unparseable names are logged as anomalies
(collected below), and names whose timestamp `ts` satisfies
`ts - timestamp <= 0` are removed with `shutil.rmtree` — which is not
wrapped in any handler, so a failure propagates immediately. -/

def removeGo (dest : List Char) (timestamp : Int) (fs : DestFS)
    (anoms : List (List Char)) :
    List (List Char) → PyResult Unit × DestFS × List (List Char)
  | [] => (.ok (), fs, anoms)
  | n :: rest =>
    if isdir fs n && startswith backupPref n then
      match parse_backup_time (dest ++ '/' :: n) with
      | none => removeGo dest timestamp fs (anoms ++ [n]) rest
      | some ts =>
        if ts - timestamp ≤ 0 then
          match rmtreeFS fs n with
          | .exn e => (.exn e, fs, anoms)
          | .ok fs' => removeGo dest timestamp fs' anoms rest
        else removeGo dest timestamp fs anoms rest
    else removeGo dest timestamp fs anoms rest

def remove_old_backups (dest : List Char) (fs : DestFS) (timestamp : Int) :
    PyResult Unit × DestFS × List (List Char) :=
  removeGo dest timestamp fs [] (listdir fs)

/-! ## Incomplete pruning (`prune_incomplete_backups`, lines 178-261) -/

/-- The first loop (lines 190-214): fold the quirky update
`if newest is None: newest = ts / elif ts is None: pass /
elif ts > newest: newest = ts` over the snapshot. -/
def findNewestGo (dest : List Char) (fs : DestFS) :
    List (List Char) → Option Int → Option Int
  | [], acc => acc
  | n :: rest, acc =>
    if isdir fs n && startswith backupPref n then
      findNewestGo dest fs rest
        (match acc, parse_backup_time (dest ++ '/' :: n) with
         | none, t => t
         | some a, none => some a
         | some a, some t => some (if t > a then t else a))
    else findNewestGo dest fs rest acc

/-- The second loop (lines 227-252): remove every directory whose name
starts with `INCOMPLETE_PREFIX` and whose timestamp satisfies
`ts - newest < 0`; `shutil.rmtree` is again unguarded. -/
def pruneGo (dest : List Char) (newest : Int) (fs : DestFS) :
    List (List Char) → PyResult Unit × DestFS
  | [] => (.ok (), fs)
  | n :: rest =>
    if isdir fs n && startswith incompletePref n then
      match parse_backup_time (dest ++ '/' :: n) with
      | none => pruneGo dest newest fs rest
      | some ts =>
        if ts - newest < 0 then
          match rmtreeFS fs n with
          | .exn e => (.exn e, fs)
          | .ok fs' => pruneGo dest newest fs' rest
        else pruneGo dest newest fs rest
    else pruneGo dest newest fs rest

/-- `prune_incomplete_backups(dest)`.  The returned `Bool` records
whether the "No backup directories found!" branch (line 255) was taken:
the distinguishable no-baseline report. -/
def prune_incomplete_backups (dest : List Char) (fs : DestFS) :
    PyResult Unit × DestFS × Bool :=
  match findNewestGo dest fs (listdir fs) none with
  | none => (.ok (), fs, true)
  | some newest =>
    match pruneGo dest newest fs (listdir fs) with
    | (r, fs') => (r, fs', false)

/-! ## Orchestrator after lock acquisition (`main`, lines 293-377)

`backup_timestamp = time.strftime(TIME_FORMAT)` is passed in as `ts`
(its instant appears in the claims as the run timestamp); the transfer
engine's observable behaviour is its exit status `exit_code`.  The
engine is invoked through the `sh` library (`from sh import rsync`,
line 14) with no `_ok_code` argument, so the call at line 305 *raises*
`sh.ErrorReturnCode` whenever `exit_code ≠ 0` and returns only on
success — which makes the `rsync_result.exit_code != 0` check at line
348 dead code, kept below as the provably untaken inner branch.  `t_ret`
is the value of `time.time()` at line 372 and `days` is
`config.days_to_keep`. -/

inductive RunOutcome where
  /-- `main` returned this value; `sys.exit(main())` makes it the
  process exit status. -/
  | exitCode (c : Int)
  /-- An exception propagated out of `main`: traceback, process exit
  status 1 regardless of `e`. -/
  | uncaught (e : PyErr)
  deriving DecidableEq, Repr

/-- Lines 296-377 of `main`: compute the directory names, invoke the
transfer engine — the `sh`-wrapped call raises `ErrorReturnCode` on a
non-zero exit, propagating uncaught out of `main`, while line 348's
`return rsync_result.exit_code` is reachable only with `exit_code = 0`
and so never fires (kept here as the provably untaken inner branch) —
otherwise promote (rename, then replace the `current` symlink with a
relative one) and run the two retention passes. -/
def main_post_transfer (dest : List Char) (fs : DestFS) (ts : List Char)
    (exit_code : Int) (t_ret : Int) (days : Int) : RunOutcome × DestFS :=
  let complete := backupPref ++ ts
  let incomplete := incompletePref ++ complete
  if exit_code ≠ 0 then
    (.uncaught (.errorReturnCode exit_code), fs)
  else if exit_code ≠ 0 then
    (.exitCode exit_code, fs)
  else
    match renameFS fs incomplete complete with
    | .exn e => (.uncaught e, fs)
    | .ok fs1 =>
      let fs2 := if lexists fs1 currentName then unlinkFS fs1 currentName else fs1
      match symlinkFS fs2 complete currentName with
      | .exn e => (.uncaught e, fs2)
      | .ok fs3 =>
        match remove_old_backups dest fs3 (t_ret - 60 * 60 * 24 * days) with
        | (.exn e, fs4, _) => (.uncaught e, fs4)
        | (.ok _, fs4, _) =>
          match prune_incomplete_backups dest fs4 with
          | (.exn e, fs5, _) => (.uncaught e, fs5)
          | (.ok _, fs5, _) => (.exitCode 0, fs5)

/-- A whole run after a successful lock acquisition: `main` from the
transfer onwards, then the `atexit`-registered unlock, which Python runs
on normal return and on an uncaught exception alike. -/
def run_after_lock (dest : List Char) (fs : DestFS) (ts : List Char)
    (exit_code : Int) (t_ret : Int) (days : Int) : RunOutcome × DestFS :=
  let r := main_post_transfer dest fs ts exit_code t_ret days
  (r.1, { r.2 with marker := releaseLock r.2.marker })

/-! ## Specification views of the retention passes

Per-entry predicates read off an `Entry`, against which the iterating
passes are characterised. -/

/-- The catalog classifies `e` as a complete backup directory: a
directory whose name starts with `BACKUP_PREFIX`. -/
def isCompleteDir (e : Entry) : Bool :=
  e.kind.isDir && startswith backupPref e.name

/-- The catalog classifies `e` as an incomplete backup directory: a
directory whose name starts with `INCOMPLETE_PREFIX`. -/
def isIncompleteDir (e : Entry) : Bool :=
  e.kind.isDir && startswith incompletePref e.name

/-- The age pass deletes `e`: a `backup-*` directory whose trailing
timestamp parses to a value at or before the cutoff `T` (the code's
`backup_timestamp - timestamp <= 0`). -/
def delCondOld (dest : List Char) (T : Int) (e : Entry) : Bool :=
  isCompleteDir e &&
    (match parse_backup_time (dest ++ '/' :: e.name) with
     | some ts => decide (ts ≤ T)
     | none => false)

/-- The age pass reports `e` as an anomaly: a `backup-*` directory whose
trailing timestamp does not parse. -/
def anomOld (dest : List Char) (e : Entry) : Bool :=
  isCompleteDir e && (parse_backup_time (dest ++ '/' :: e.name)).isNone

/-- The incomplete pass deletes `e`: an `incomplete-*` directory whose
timestamp is strictly older than `newest` (the code's
`incomplete_timestamp - newest_timestamp < 0`). -/
def delCondInc (dest : List Char) (newest : Int) (e : Entry) : Bool :=
  isIncompleteDir e &&
    (match parse_backup_time (dest ++ '/' :: e.name) with
     | some ts => decide (ts < newest)
     | none => false)

/-- Maximum of two optional timestamps. -/
def omax : Option Int → Option Int → Option Int
  | none, b => b
  | some a, none => some a
  | some a, some b => some (max a b)

/-- The maximum parsed timestamp over the complete backup directories of
a listing (`none` when there is none to take). -/
def specNewest (dest : List Char) (es : List Entry) : Option Int :=
  es.foldl
    (fun acc e =>
      if isCompleteDir e then omax acc (parse_backup_time (dest ++ '/' :: e.name))
      else acc)
    none

/-- The listing has pairwise distinct names (what `os.listdir` yields). -/
def nodupNames (fs : DestFS) : Prop := (fs.entries.map Entry.name).Nodup

instance (fs : DestFS) : Decidable (nodupNames fs) := by
  unfold nodupNames
  infer_instance

/-! ## List-level helper lemmas -/

lemma find?_filter_keep (l : List Entry) (p q : Entry → Bool)
    (h : ∀ e, p e = true → q e = true) :
    (l.filter q).find? p = l.find? p := by
  induction l with
  | nil => rfl
  | cons a t ih =>
    by_cases hp : p a = true
    · rw [List.filter_cons_of_pos (h a hp), List.find?_cons_of_pos _ hp,
        List.find?_cons_of_pos _ hp]
    · by_cases hq : q a = true
      · rw [List.filter_cons_of_pos hq, List.find?_cons_of_neg _ hp,
          List.find?_cons_of_neg _ hp, ih]
      · rw [List.filter_cons_of_neg hq, List.find?_cons_of_neg _ hp, ih]

lemma find?_name_eq_of_mem :
    ∀ {l : List Entry} {e : Entry}, (l.map Entry.name).Nodup → e ∈ l →
      l.find? (fun x => x.name == e.name) = some e := by
  intro l
  induction l with
  | nil => intro e _ he; cases he
  | cons a t ih =>
    intro e hn he
    rw [List.map_cons, List.nodup_cons] at hn
    rcases List.mem_cons.mp he with rfl | ht
    · exact List.find?_cons_of_pos _ (by simp)
    · have hne : ¬a.name = e.name := fun h =>
        hn.1 (h ▸ List.mem_map.mpr ⟨e, ht, rfl⟩)
      rw [List.find?_cons_of_neg _ (by simp [hne])]
      exact ih hn.2 ht

lemma name_inj {l : List Entry} (hn : (l.map Entry.name).Nodup)
    {x y : Entry} (hx : x ∈ l) (hy : y ∈ l) (h : x.name = y.name) : x = y := by
  have hfx := find?_name_eq_of_mem hn hx
  have hfy := find?_name_eq_of_mem hn hy
  rw [h] at hfx
  rw [hfx] at hfy
  exact Option.some_injective _ hfy

lemma findEntry_eq_of_mem {fs : DestFS} {e : Entry}
    (hn : nodupNames fs) (he : e ∈ fs.entries) :
    findEntry fs e.name = some e :=
  find?_name_eq_of_mem hn he

lemma mem_of_findEntry {fs : DestFS} {e : Entry} {n : List Char}
    (h : findEntry fs n = some e) : e ∈ fs.entries :=
  List.mem_of_find?_eq_some h

lemma findEntry_delName_ne (fs : DestFS) {m n : List Char} (h : m ≠ n) :
    findEntry (delName fs n) m = findEntry fs m := by
  unfold findEntry delName
  refine find?_filter_keep _ _ _ (fun e hp => ?_)
  have he : e.name = m := by simpa using hp
  simp [he, h]

lemma nodupNames_delName {fs : DestFS} (h : nodupNames fs) (n : List Char) :
    nodupNames (delName fs n) :=
  List.Nodup.sublist (List.Sublist.map Entry.name (List.filter_sublist _)) h

/-! ## Characterisation of the age pass -/

lemma removeGo_ok (dest : List Char) (T : Int) :
    ∀ (es : List Entry) (fs : DestFS) (anoms : List (List Char)),
      fs.failing = [] →
      nodupNames fs →
      (∀ e ∈ es, findEntry fs e.name = some e) →
      (es.map Entry.name).Nodup →
      removeGo dest T fs anoms (es.map Entry.name) =
        (.ok (),
         { fs with entries := (fs.entries.filter
             (fun x => !((es.map Entry.name).contains x.name && delCondOld dest T x))) },
         anoms ++ (es.filter (anomOld dest)).map Entry.name) := by
  intro es
  induction es with
  | nil =>
    intro fs anoms _ _ _ _
    simp [removeGo]
  | cons e rest ih =>
    intro fs anoms hfail hnd hmem hnes
    have hfe : findEntry fs e.name = some e := hmem e (List.mem_cons_self _ _)
    have heM : e ∈ fs.entries := mem_of_findEntry hfe
    have hrmem : ∀ x ∈ rest, findEntry fs x.name = some x :=
      fun x hx => hmem x (List.mem_cons_of_mem _ hx)
    rw [List.map_cons] at hnes ⊢
    rw [List.nodup_cons] at hnes
    have hnotin : e.name ∉ rest.map Entry.name := hnes.1
    have hisd : isdir fs e.name = e.kind.isDir := by
      unfold isdir
      rw [hfe]
    have hkeep : delCondOld dest T e = false →
        ∀ x ∈ fs.entries,
          (!((rest.map Entry.name).contains x.name && delCondOld dest T x)) =
          (!((e.name :: rest.map Entry.name).contains x.name && delCondOld dest T x)) := by
      intro hdel x hx
      rw [List.contains_cons]
      by_cases hxn : x.name = e.name
      · have hxe : x = e := name_inj hnd hx heM hxn
        subst hxe
        simp [hdel]
      · have hb : (x.name == e.name) = false := beq_eq_false_iff_ne.mpr hxn
        simp [hb]
    simp only [removeGo]
    rw [hisd]
    cases hcs : (e.kind.isDir && startswith backupPref e.name) with
    | false =>
      have hcd : isCompleteDir e = false := hcs
      have hdel : delCondOld dest T e = false := by simp [delCondOld, hcd]
      have hanom : anomOld dest e = false := by simp [anomOld, hcd]
      rw [if_neg (by simp)]
      rw [ih fs anoms hfail hnd hrmem hnes.2]
      rw [List.filter_cons_of_neg (by simp [hanom])]
      rw [List.filter_congr (hkeep hdel)]
    | true =>
      have hcd : isCompleteDir e = true := hcs
      rw [if_pos rfl]
      cases hp : parse_backup_time (dest ++ '/' :: e.name) with
      | none =>
        simp only [hp]
        rw [ih fs (anoms ++ [e.name]) hfail hnd hrmem hnes.2]
        have hdel : delCondOld dest T e = false := by simp [delCondOld, hp]
        have hanom : anomOld dest e = true := by simp [anomOld, hcd, hp]
        rw [List.filter_cons_of_pos (by simp [hanom])]
        rw [List.filter_congr (hkeep hdel)]
        simp
      | some ts =>
        simp only [hp]
        have hanom : anomOld dest e = false := by simp [anomOld, hp]
        by_cases hts : ts - T ≤ 0
        · rw [if_pos hts]
          have hle : ts ≤ T := by omega
          have hdel : delCondOld dest T e = true := by
            simp [delCondOld, hcd, hp, hle]
          have hrm : rmtreeFS fs e.name = .ok (delName fs e.name) := by
            unfold rmtreeFS
            rw [hfail]
            rfl
          simp only [hrm]
          have hmem' : ∀ x ∈ rest, findEntry (delName fs e.name) x.name = some x := by
            intro x hx
            have hxn : x.name ≠ e.name := fun h =>
              hnotin (h ▸ List.mem_map.mpr ⟨x, hx, rfl⟩)
            rw [findEntry_delName_ne fs hxn]
            exact hrmem x hx
          rw [ih (delName fs e.name) anoms hfail (nodupNames_delName hnd _) hmem' hnes.2]
          rw [List.filter_cons_of_neg (by simp [hanom])]
          have hent : (delName fs e.name).entries.filter
              (fun x => !((rest.map Entry.name).contains x.name && delCondOld dest T x)) =
              fs.entries.filter
              (fun x => !((e.name :: rest.map Entry.name).contains x.name && delCondOld dest T x)) := by
            unfold delName
            rw [List.filter_filter]
            refine List.filter_congr (fun x hx => ?_)
            rw [List.contains_cons]
            by_cases hxn : x.name = e.name
            · have hxe : x = e := name_inj hnd hx heM hxn
              subst hxe
              simp [hdel]
            · have hb : (x.name == e.name) = false := beq_eq_false_iff_ne.mpr hxn
              simp [hb]
          rw [hent]
          rfl
        · rw [if_neg hts]
          have hnle : ¬ ts ≤ T := by omega
          have hdel : delCondOld dest T e = false := by
            simp [delCondOld, hp, hnle]
          rw [ih fs anoms hfail hnd hrmem hnes.2]
          rw [List.filter_cons_of_neg (by simp [hanom])]
          rw [List.filter_congr (hkeep hdel)]

lemma mem_names_of_mem {fs : DestFS} {e : Entry} (he : e ∈ fs.entries) :
    (fs.entries.map Entry.name).contains e.name = true := by
  simp only [List.contains_eq_any_beq, List.any_eq_true]
  exact ⟨e.name, List.mem_map.mpr ⟨e, he, rfl⟩, by simp⟩

/-- `remove_old_backups` with distinct names and no deletion faults:
it removes exactly the entries satisfying `delCondOld` and reports
exactly the `anomOld` entries. -/
lemma remove_old_backups_spec (dest : List Char) (fs : DestFS) (T : Int)
    (hfail : fs.failing = []) (hnd : nodupNames fs) :
    remove_old_backups dest fs T =
      (.ok (),
       { fs with entries := (fs.entries.filter (fun x => !delCondOld dest T x)) },
       (fs.entries.filter (anomOld dest)).map Entry.name) := by
  unfold remove_old_backups listdir
  rw [removeGo_ok dest T fs.entries fs [] hfail hnd
    (fun e he => findEntry_eq_of_mem hnd he) hnd]
  have : fs.entries.filter
      (fun x => !((fs.entries.map Entry.name).contains x.name && delCondOld dest T x)) =
      fs.entries.filter (fun x => !delCondOld dest T x) := by
    refine List.filter_congr (fun x hx => ?_)
    rw [mem_names_of_mem hx]
    simp
  rw [this]
  simp

lemma delCondOld_decomp {dest : List Char} {T : Int} {e : Entry}
    (h : delCondOld dest T e = true) :
    isCompleteDir e = true ∧
      ∃ ts, parse_backup_time (dest ++ '/' :: e.name) = some ts ∧ ts ≤ T := by
  unfold delCondOld at h
  rcases Bool.and_eq_true_iff.mp h with ⟨h1, h2⟩
  refine ⟨h1, ?_⟩
  cases hp : parse_backup_time (dest ++ '/' :: e.name) with
  | none => rw [hp] at h2; cases h2
  | some ts =>
    rw [hp] at h2
    exact ⟨ts, rfl, of_decide_eq_true h2⟩

/-- `remove_old_backups`, abort shape: with distinct names, when the
listing is `pre ++ bad :: post` where `bad` is the first deletable entry
whose `rmtree` faults, the pass deletes the deletable entries of `pre`,
then aborts with the propagating `OSError`: `bad` itself and everything
in `post` are left untouched, and the anomalies of `post` are never
reported. -/
lemma removeGo_abort (dest : List Char) (T : Int) :
    ∀ (pre : List Entry) (fs : DestFS) (anoms : List (List Char))
      (bad : Entry) (post : List Entry),
      nodupNames fs →
      (∀ e ∈ pre ++ bad :: post, findEntry fs e.name = some e) →
      ((pre ++ bad :: post).map Entry.name).Nodup →
      (∀ e ∈ pre, delCondOld dest T e = true → fs.failing.contains e.name = false) →
      delCondOld dest T bad = true →
      fs.failing.contains bad.name = true →
      removeGo dest T fs anoms ((pre ++ bad :: post).map Entry.name) =
        (.exn .removeError,
         { fs with entries := (fs.entries.filter
             (fun x => !((pre.map Entry.name).contains x.name && delCondOld dest T x))) },
         anoms ++ (pre.filter (anomOld dest)).map Entry.name) := by
  intro pre
  induction pre with
  | nil =>
    intro fs anoms bad post hnd hmem hnes hsafe hdel hbadfail
    have hfe : findEntry fs bad.name = some bad := hmem bad (by simp)
    have hisd : isdir fs bad.name = bad.kind.isDir := by
      unfold isdir
      rw [hfe]
    rcases delCondOld_decomp hdel with ⟨hcd, ts, hp, hle⟩
    have hcs : (bad.kind.isDir && startswith backupPref bad.name) = true := hcd
    rw [List.nil_append, List.map_cons]
    simp only [removeGo]
    rw [hisd, if_pos hcs]
    simp only [hp]
    rw [if_pos (by omega : ts - T ≤ 0)]
    have hrm : rmtreeFS fs bad.name = .exn .removeError := by
      unfold rmtreeFS
      rw [hbadfail]
      rfl
    simp only [hrm]
    simp
  | cons e pre' ih =>
    intro fs anoms bad post hnd hmem hnes hsafe hdel hbadfail
    have hfe : findEntry fs e.name = some e := hmem e (by simp)
    have heM : e ∈ fs.entries := mem_of_findEntry hfe
    have hrmem : ∀ x ∈ pre' ++ bad :: post, findEntry fs x.name = some x :=
      fun x hx => hmem x (List.mem_cons_of_mem _ hx)
    rw [List.cons_append, List.map_cons] at hnes ⊢
    rw [List.nodup_cons] at hnes
    have hnotin : e.name ∉ (pre' ++ bad :: post).map Entry.name := hnes.1
    have hsafe' : ∀ x ∈ pre', delCondOld dest T x = true →
        fs.failing.contains x.name = false :=
      fun x hx => hsafe x (List.mem_cons_of_mem _ hx)
    have hisd : isdir fs e.name = e.kind.isDir := by
      unfold isdir
      rw [hfe]
    have hkeep : delCondOld dest T e = false →
        ∀ x ∈ fs.entries,
          (!((pre'.map Entry.name).contains x.name && delCondOld dest T x)) =
          (!((e.name :: pre'.map Entry.name).contains x.name && delCondOld dest T x)) := by
      intro hdel0 x hx
      rw [List.contains_cons]
      by_cases hxn : x.name = e.name
      · have hxe : x = e := name_inj hnd hx heM hxn
        subst hxe
        simp [hdel0]
      · have hb : (x.name == e.name) = false := beq_eq_false_iff_ne.mpr hxn
        simp [hb]
    simp only [removeGo]
    rw [hisd]
    cases hcs : (e.kind.isDir && startswith backupPref e.name) with
    | false =>
      have hcd : isCompleteDir e = false := hcs
      have hdel0 : delCondOld dest T e = false := by simp [delCondOld, hcd]
      have hanom : anomOld dest e = false := by simp [anomOld, hcd]
      rw [if_neg (by simp)]
      rw [ih fs anoms bad post hnd hrmem hnes.2 hsafe' hdel hbadfail]
      rw [List.filter_cons_of_neg (by simp [hanom])]
      rw [List.filter_congr (hkeep hdel0)]
      simp
    | true =>
      have hcd : isCompleteDir e = true := hcs
      rw [if_pos rfl]
      cases hp : parse_backup_time (dest ++ '/' :: e.name) with
      | none =>
        simp only [hp]
        rw [ih fs (anoms ++ [e.name]) bad post hnd hrmem hnes.2 hsafe' hdel hbadfail]
        have hdel0 : delCondOld dest T e = false := by simp [delCondOld, hp]
        have hanom : anomOld dest e = true := by simp [anomOld, hcd, hp]
        rw [List.filter_cons_of_pos (by simp [hanom])]
        rw [List.filter_congr (hkeep hdel0)]
        simp
      | some ts =>
        simp only [hp]
        have hanom : anomOld dest e = false := by simp [anomOld, hp]
        by_cases hts : ts - T ≤ 0
        · rw [if_pos hts]
          have hle : ts ≤ T := by omega
          have hdel0 : delCondOld dest T e = true := by
            simp [delCondOld, hcd, hp, hle]
          have hrm : rmtreeFS fs e.name = .ok (delName fs e.name) := by
            unfold rmtreeFS
            rw [hsafe e (by simp) hdel0]
            rfl
          simp only [hrm]
          have hmem' : ∀ x ∈ pre' ++ bad :: post,
              findEntry (delName fs e.name) x.name = some x := by
            intro x hx
            have hxn : x.name ≠ e.name := fun h =>
              hnotin (h ▸ List.mem_map.mpr ⟨x, hx, rfl⟩)
            rw [findEntry_delName_ne fs hxn]
            exact hrmem x hx
          have hbad' : (delName fs e.name).failing.contains bad.name = true := hbadfail
          have hsafe'' : ∀ x ∈ pre', delCondOld dest T x = true →
              (delName fs e.name).failing.contains x.name = false :=
            fun x hx h => hsafe' x hx h
          rw [ih (delName fs e.name) anoms bad post (nodupNames_delName hnd _)
            hmem' hnes.2 hsafe'' hdel hbad']
          have hent : (delName fs e.name).entries.filter
              (fun x => !((pre'.map Entry.name).contains x.name && delCondOld dest T x)) =
              fs.entries.filter
              (fun x => !((e.name :: pre'.map Entry.name).contains x.name && delCondOld dest T x)) := by
            unfold delName
            rw [List.filter_filter]
            refine List.filter_congr (fun x hx => ?_)
            rw [List.contains_cons]
            by_cases hxn : x.name = e.name
            · have hxe : x = e := name_inj hnd hx heM hxn
              subst hxe
              simp [hdel0]
            · have hb : (x.name == e.name) = false := beq_eq_false_iff_ne.mpr hxn
              simp [hb]
          rw [List.filter_cons_of_neg (by simp [hanom])]
          rw [hent]
          simp [delName]
        · rw [if_neg hts]
          have hnle : ¬ ts ≤ T := by omega
          have hdel0 : delCondOld dest T e = false := by
            simp [delCondOld, hp, hnle]
          rw [ih fs anoms bad post hnd hrmem hnes.2 hsafe' hdel hbadfail]
          rw [List.filter_cons_of_neg (by simp [hanom])]
          rw [List.filter_congr (hkeep hdel0)]
          simp

/-! ## Characterisation of the newest-backup scan -/

/-- The step function of `specNewest`. -/
def newestStep (dest : List Char) (acc : Option Int) (e : Entry) : Option Int :=
  if isCompleteDir e then omax acc (parse_backup_time (dest ++ '/' :: e.name))
  else acc

lemma specNewest_eq_foldl (dest : List Char) (es : List Entry) :
    specNewest dest es = es.foldl (newestStep dest) none := by
  unfold specNewest newestStep
  rfl

lemma quirky_eq_omax (acc t : Option Int) :
    (match acc, t with
     | none, t => t
     | some a, none => some a
     | some a, some t => some (if t > a then t else a)) = omax acc t := by
  rcases acc with _ | a <;> rcases t with _ | t <;> simp [omax]
  rw [max_def]
  split_ifs <;> omega

lemma findNewestGo_eq (dest : List Char) (fs : DestFS) :
    ∀ (es : List Entry) (acc : Option Int),
      (∀ e ∈ es, findEntry fs e.name = some e) →
      findNewestGo dest fs (es.map Entry.name) acc =
        es.foldl (newestStep dest) acc := by
  intro es
  induction es with
  | nil =>
    intro acc _
    simp [findNewestGo]
  | cons e rest ih =>
    intro acc hmem
    have hfe : findEntry fs e.name = some e := hmem e (by simp)
    have hisd : isdir fs e.name = e.kind.isDir := by
      unfold isdir
      rw [hfe]
    rw [List.map_cons]
    simp only [findNewestGo]
    rw [hisd, List.foldl_cons]
    cases hcs : (e.kind.isDir && startswith backupPref e.name) with
    | false =>
      have hcd : isCompleteDir e = false := hcs
      rw [if_neg (by simp), ih acc (fun x hx => hmem x (List.mem_cons_of_mem _ hx))]
      unfold newestStep
      rw [if_neg (by simp [hcd])]
    | true =>
      have hcd : isCompleteDir e = true := hcs
      rw [if_pos rfl, quirky_eq_omax,
        ih _ (fun x hx => hmem x (List.mem_cons_of_mem _ hx))]
      unfold newestStep
      rw [if_pos hcd]

/-- The value computed by the first loop is the maximum parsed timestamp
over the complete backup directories. -/
lemma foldl_newestStep_max (dest : List Char) :
    ∀ (es : List Entry) (acc : Option Int) (m : Int),
      es.foldl (newestStep dest) acc = some m →
      (acc = some m ∨ ∃ e ∈ es, isCompleteDir e = true ∧
        parse_backup_time (dest ++ '/' :: e.name) = some m) ∧
      (∀ a, acc = some a → a ≤ m) ∧
      (∀ e ∈ es, isCompleteDir e = true →
        ∀ t, parse_backup_time (dest ++ '/' :: e.name) = some t → t ≤ m) := by
  intro es
  induction es with
  | nil =>
    intro acc m h
    simp only [List.foldl_nil] at h
    refine ⟨Or.inl h, ?_, by simp⟩
    intro a ha
    rw [ha, Option.some.injEq] at h
    omega
  | cons e rest ih =>
    intro acc m h
    rw [List.foldl_cons] at h
    rcases ih (newestStep dest acc e) m h with ⟨hex, hacc, hall⟩
    by_cases hcd : isCompleteDir e = true
    · cases hp : parse_backup_time (dest ++ '/' :: e.name) with
      | none =>
        have hstep : newestStep dest acc e = acc := by
          unfold newestStep
          rw [if_pos hcd, hp]
          rcases acc with _ | a <;> rfl
        rw [hstep] at hex hacc
        refine ⟨?_, hacc, ?_⟩
        · rcases hex with h1 | ⟨x, hx, hc, hpx⟩
          · exact Or.inl h1
          · exact Or.inr ⟨x, List.mem_cons_of_mem _ hx, hc, hpx⟩
        · intro x hx hcx t hpt
          rcases List.mem_cons.mp hx with rfl | hx'
          · rw [hp] at hpt; cases hpt
          · exact hall x hx' hcx t hpt
      | some t0 =>
        have hstep : newestStep dest acc e = omax acc (some t0) := by
          unfold newestStep
          rw [if_pos hcd, hp]
        rw [hstep] at hex hacc
        have ht0 : t0 ≤ m := by
          rcases acc with _ | a
          · exact hacc t0 rfl
          · have := hacc (max a t0) rfl
            have := le_max_right a t0
            omega
        refine ⟨?_, ?_, ?_⟩
        · rcases hex with h1 | ⟨x, hx, hc, hpx⟩
          · rcases acc with _ | a
            · simp only [omax] at h1
              exact Or.inr ⟨e, by simp, hcd, by rw [hp, h1]⟩
            · simp only [omax, Option.some.injEq] at h1
              rcases max_choice a t0 with hm | hm
              · exact Or.inl (by rw [hm] at h1; rw [h1])
              · refine Or.inr ⟨e, by simp, hcd, ?_⟩
                rw [hm] at h1
                rw [hp, h1]
          · exact Or.inr ⟨x, List.mem_cons_of_mem _ hx, hc, hpx⟩
        · intro a ha
          rcases acc with _ | b
          · cases ha
          · have hb : b = a := by injection ha
            have h1 := hacc (max b t0) rfl
            have h2 := le_max_left b t0
            omega
        · intro x hx hcx t hpt
          rcases List.mem_cons.mp hx with rfl | hx'
          · rw [hp] at hpt
            cases hpt
            exact ht0
          · exact hall x hx' hcx t hpt
    · have hstep : newestStep dest acc e = acc := by
        unfold newestStep
        rw [if_neg hcd]
      rw [hstep] at hex hacc
      refine ⟨?_, hacc, ?_⟩
      · rcases hex with h1 | ⟨x, hx, hc, hpx⟩
        · exact Or.inl h1
        · exact Or.inr ⟨x, List.mem_cons_of_mem _ hx, hc, hpx⟩
      · intro x hx hcx t hpt
        rcases List.mem_cons.mp hx with rfl | hx'
        · exact absurd hcx hcd
        · exact hall x hx' hcx t hpt

lemma specNewest_none_of_no_complete (dest : List Char) :
    ∀ (es : List Entry), (∀ e ∈ es, isCompleteDir e = false) →
      ∀ acc, es.foldl (newestStep dest) acc = acc := by
  intro es
  induction es with
  | nil => intro _ acc; rfl
  | cons e rest ih =>
    intro h acc
    rw [List.foldl_cons]
    have hstep : newestStep dest acc e = acc := by
      unfold newestStep
      rw [if_neg (by simp [h e (by simp)])]
    rw [hstep]
    exact ih (fun x hx => h x (List.mem_cons_of_mem _ hx)) acc

/-! ## Characterisation of the incomplete-pruning loop -/

lemma pruneGo_ok (dest : List Char) (nw : Int) :
    ∀ (es : List Entry) (fs : DestFS),
      fs.failing = [] →
      nodupNames fs →
      (∀ e ∈ es, findEntry fs e.name = some e) →
      (es.map Entry.name).Nodup →
      pruneGo dest nw fs (es.map Entry.name) =
        (.ok (),
         { fs with entries := (fs.entries.filter
             (fun x => !((es.map Entry.name).contains x.name && delCondInc dest nw x))) }) := by
  intro es
  induction es with
  | nil =>
    intro fs _ _ _ _
    simp [pruneGo]
  | cons e rest ih =>
    intro fs hfail hnd hmem hnes
    have hfe : findEntry fs e.name = some e := hmem e (List.mem_cons_self _ _)
    have heM : e ∈ fs.entries := mem_of_findEntry hfe
    have hrmem : ∀ x ∈ rest, findEntry fs x.name = some x :=
      fun x hx => hmem x (List.mem_cons_of_mem _ hx)
    rw [List.map_cons] at hnes ⊢
    rw [List.nodup_cons] at hnes
    have hnotin : e.name ∉ rest.map Entry.name := hnes.1
    have hisd : isdir fs e.name = e.kind.isDir := by
      unfold isdir
      rw [hfe]
    have hkeep : delCondInc dest nw e = false →
        ∀ x ∈ fs.entries,
          (!((rest.map Entry.name).contains x.name && delCondInc dest nw x)) =
          (!((e.name :: rest.map Entry.name).contains x.name && delCondInc dest nw x)) := by
      intro hdel x hx
      rw [List.contains_cons]
      by_cases hxn : x.name = e.name
      · have hxe : x = e := name_inj hnd hx heM hxn
        subst hxe
        simp [hdel]
      · have hb : (x.name == e.name) = false := beq_eq_false_iff_ne.mpr hxn
        simp [hb]
    simp only [pruneGo]
    rw [hisd]
    cases hcs : (e.kind.isDir && startswith incompletePref e.name) with
    | false =>
      have hcd : isIncompleteDir e = false := hcs
      have hdel : delCondInc dest nw e = false := by simp [delCondInc, hcd]
      rw [if_neg (by simp)]
      rw [ih fs hfail hnd hrmem hnes.2]
      rw [List.filter_congr (hkeep hdel)]
    | true =>
      have hcd : isIncompleteDir e = true := hcs
      rw [if_pos rfl]
      cases hp : parse_backup_time (dest ++ '/' :: e.name) with
      | none =>
        simp only [hp]
        have hdel : delCondInc dest nw e = false := by simp [delCondInc, hp]
        rw [ih fs hfail hnd hrmem hnes.2]
        rw [List.filter_congr (hkeep hdel)]
      | some ts =>
        simp only [hp]
        by_cases hts : ts - nw < 0
        · rw [if_pos hts]
          have hlt : ts < nw := by omega
          have hdel : delCondInc dest nw e = true := by
            simp [delCondInc, hcd, hp, hlt]
          have hrm : rmtreeFS fs e.name = .ok (delName fs e.name) := by
            unfold rmtreeFS
            rw [hfail]
            rfl
          simp only [hrm]
          have hmem' : ∀ x ∈ rest, findEntry (delName fs e.name) x.name = some x := by
            intro x hx
            have hxn : x.name ≠ e.name := fun h =>
              hnotin (h ▸ List.mem_map.mpr ⟨x, hx, rfl⟩)
            rw [findEntry_delName_ne fs hxn]
            exact hrmem x hx
          rw [ih (delName fs e.name) hfail (nodupNames_delName hnd _) hmem' hnes.2]
          have hent : (delName fs e.name).entries.filter
              (fun x => !((rest.map Entry.name).contains x.name && delCondInc dest nw x)) =
              fs.entries.filter
              (fun x => !((e.name :: rest.map Entry.name).contains x.name && delCondInc dest nw x)) := by
            unfold delName
            rw [List.filter_filter]
            refine List.filter_congr (fun x hx => ?_)
            rw [List.contains_cons]
            by_cases hxn : x.name = e.name
            · have hxe : x = e := name_inj hnd hx heM hxn
              subst hxe
              simp [hdel]
            · have hb : (x.name == e.name) = false := beq_eq_false_iff_ne.mpr hxn
              simp [hb]
          rw [hent]
          rfl
        · rw [if_neg hts]
          have hnlt : ¬ ts < nw := by omega
          have hdel : delCondInc dest nw e = false := by
            simp [delCondInc, hp, hnlt]
          rw [ih fs hfail hnd hrmem hnes.2]
          rw [List.filter_congr (hkeep hdel)]

lemma delCondInc_decomp {dest : List Char} {nw : Int} {e : Entry}
    (h : delCondInc dest nw e = true) :
    isIncompleteDir e = true ∧
      ∃ ts, parse_backup_time (dest ++ '/' :: e.name) = some ts ∧ ts < nw := by
  unfold delCondInc at h
  rcases Bool.and_eq_true_iff.mp h with ⟨h1, h2⟩
  refine ⟨h1, ?_⟩
  cases hp : parse_backup_time (dest ++ '/' :: e.name) with
  | none => rw [hp] at h2; cases h2
  | some ts =>
    rw [hp] at h2
    exact ⟨ts, rfl, of_decide_eq_true h2⟩

/-- `pruneGo`, abort shape: the second loop deletes the deletable
entries before the first faulting one, then aborts with the propagating
`OSError`, leaving the faulting entry and everything after it in the
listing untouched. -/
lemma pruneGo_abort (dest : List Char) (nw : Int) :
    ∀ (pre : List Entry) (fs : DestFS) (bad : Entry) (post : List Entry),
      nodupNames fs →
      (∀ e ∈ pre ++ bad :: post, findEntry fs e.name = some e) →
      ((pre ++ bad :: post).map Entry.name).Nodup →
      (∀ e ∈ pre, delCondInc dest nw e = true → fs.failing.contains e.name = false) →
      delCondInc dest nw bad = true →
      fs.failing.contains bad.name = true →
      pruneGo dest nw fs ((pre ++ bad :: post).map Entry.name) =
        (.exn .removeError,
         { fs with entries := (fs.entries.filter
             (fun x => !((pre.map Entry.name).contains x.name && delCondInc dest nw x))) }) := by
  intro pre
  induction pre with
  | nil =>
    intro fs bad post hnd hmem hnes hsafe hdel hbadfail
    have hfe : findEntry fs bad.name = some bad := hmem bad (by simp)
    have hisd : isdir fs bad.name = bad.kind.isDir := by
      unfold isdir
      rw [hfe]
    rcases delCondInc_decomp hdel with ⟨hcd, ts, hp, hlt⟩
    have hcs : (bad.kind.isDir && startswith incompletePref bad.name) = true := hcd
    rw [List.nil_append, List.map_cons]
    simp only [pruneGo]
    rw [hisd, if_pos hcs]
    simp only [hp]
    rw [if_pos (by omega : ts - nw < 0)]
    have hrm : rmtreeFS fs bad.name = .exn .removeError := by
      unfold rmtreeFS
      rw [hbadfail]
      rfl
    simp only [hrm]
    simp
  | cons e pre' ih =>
    intro fs bad post hnd hmem hnes hsafe hdel hbadfail
    have hfe : findEntry fs e.name = some e := hmem e (by simp)
    have heM : e ∈ fs.entries := mem_of_findEntry hfe
    have hrmem : ∀ x ∈ pre' ++ bad :: post, findEntry fs x.name = some x :=
      fun x hx => hmem x (List.mem_cons_of_mem _ hx)
    rw [List.cons_append, List.map_cons] at hnes ⊢
    rw [List.nodup_cons] at hnes
    have hnotin : e.name ∉ (pre' ++ bad :: post).map Entry.name := hnes.1
    have hsafe' : ∀ x ∈ pre', delCondInc dest nw x = true →
        fs.failing.contains x.name = false :=
      fun x hx => hsafe x (List.mem_cons_of_mem _ hx)
    have hisd : isdir fs e.name = e.kind.isDir := by
      unfold isdir
      rw [hfe]
    have hkeep : delCondInc dest nw e = false →
        ∀ x ∈ fs.entries,
          (!((pre'.map Entry.name).contains x.name && delCondInc dest nw x)) =
          (!((e.name :: pre'.map Entry.name).contains x.name && delCondInc dest nw x)) := by
      intro hdel0 x hx
      rw [List.contains_cons]
      by_cases hxn : x.name = e.name
      · have hxe : x = e := name_inj hnd hx heM hxn
        subst hxe
        simp [hdel0]
      · have hb : (x.name == e.name) = false := beq_eq_false_iff_ne.mpr hxn
        simp [hb]
    simp only [pruneGo]
    rw [hisd]
    cases hcs : (e.kind.isDir && startswith incompletePref e.name) with
    | false =>
      have hcd : isIncompleteDir e = false := hcs
      have hdel0 : delCondInc dest nw e = false := by simp [delCondInc, hcd]
      rw [if_neg (by simp)]
      rw [ih fs bad post hnd hrmem hnes.2 hsafe' hdel hbadfail]
      rw [List.filter_congr (hkeep hdel0)]
      simp
    | true =>
      have hcd : isIncompleteDir e = true := hcs
      rw [if_pos rfl]
      cases hp : parse_backup_time (dest ++ '/' :: e.name) with
      | none =>
        simp only [hp]
        have hdel0 : delCondInc dest nw e = false := by simp [delCondInc, hp]
        rw [ih fs bad post hnd hrmem hnes.2 hsafe' hdel hbadfail]
        rw [List.filter_congr (hkeep hdel0)]
        simp
      | some ts =>
        simp only [hp]
        by_cases hts : ts - nw < 0
        · rw [if_pos hts]
          have hlt : ts < nw := by omega
          have hdel0 : delCondInc dest nw e = true := by
            simp [delCondInc, hcd, hp, hlt]
          have hrm : rmtreeFS fs e.name = .ok (delName fs e.name) := by
            unfold rmtreeFS
            rw [hsafe e (by simp) hdel0]
            rfl
          simp only [hrm]
          have hmem' : ∀ x ∈ pre' ++ bad :: post,
              findEntry (delName fs e.name) x.name = some x := by
            intro x hx
            have hxn : x.name ≠ e.name := fun h =>
              hnotin (h ▸ List.mem_map.mpr ⟨x, hx, rfl⟩)
            rw [findEntry_delName_ne fs hxn]
            exact hrmem x hx
          have hbad' : (delName fs e.name).failing.contains bad.name = true := hbadfail
          have hsafe'' : ∀ x ∈ pre', delCondInc dest nw x = true →
              (delName fs e.name).failing.contains x.name = false :=
            fun x hx h => hsafe' x hx h
          rw [ih (delName fs e.name) bad post (nodupNames_delName hnd _)
            hmem' hnes.2 hsafe'' hdel hbad']
          have hent : (delName fs e.name).entries.filter
              (fun x => !((pre'.map Entry.name).contains x.name && delCondInc dest nw x)) =
              fs.entries.filter
              (fun x => !((e.name :: pre'.map Entry.name).contains x.name && delCondInc dest nw x)) := by
            unfold delName
            rw [List.filter_filter]
            refine List.filter_congr (fun x hx => ?_)
            rw [List.contains_cons]
            by_cases hxn : x.name = e.name
            · have hxe : x = e := name_inj hnd hx heM hxn
              subst hxe
              simp [hdel0]
            · have hb : (x.name == e.name) = false := beq_eq_false_iff_ne.mpr hxn
              simp [hb]
          rw [hent]
          simp [delName]
        · rw [if_neg hts]
          have hnlt : ¬ ts < nw := by omega
          have hdel0 : delCondInc dest nw e = false := by
            simp [delCondInc, hp, hnlt]
          rw [ih fs bad post hnd hrmem hnes.2 hsafe' hdel hbadfail]
          rw [List.filter_congr (hkeep hdel0)]
          simp

/-- `prune_incomplete_backups` with distinct names and no deletion
faults: when a newest complete timestamp `m` exists it removes exactly
the incomplete directories strictly older than `m`; when the listing has
no complete backup directory at all it deletes nothing and reports the
no-baseline condition. -/
lemma prune_incomplete_backups_spec (dest : List Char) (fs : DestFS)
    (hfail : fs.failing = []) (hnd : nodupNames fs) :
    (∀ m, specNewest dest fs.entries = some m →
      prune_incomplete_backups dest fs =
        (.ok (),
         { fs with entries := (fs.entries.filter (fun x => !delCondInc dest m x)) },
         false)) ∧
    (specNewest dest fs.entries = none →
      prune_incomplete_backups dest fs = (.ok (), fs, true)) := by
  have hmem : ∀ e ∈ fs.entries, findEntry fs e.name = some e :=
    fun e he => findEntry_eq_of_mem hnd he
  have hfind : findNewestGo dest fs (listdir fs) none = specNewest dest fs.entries := by
    unfold listdir
    rw [findNewestGo_eq dest fs fs.entries none hmem, specNewest_eq_foldl]
  constructor
  · intro m hm
    unfold prune_incomplete_backups
    rw [hfind]
    simp only [hm]
    rw [show listdir fs = fs.entries.map Entry.name from rfl]
    simp only [pruneGo_ok dest m fs.entries fs hfail hnd hmem hnd]
    have : fs.entries.filter
        (fun x => !((fs.entries.map Entry.name).contains x.name && delCondInc dest m x)) =
        fs.entries.filter (fun x => !delCondInc dest m x) := by
      refine List.filter_congr (fun x hx => ?_)
      rw [mem_names_of_mem hx]
      simp
    rw [this]
  · intro hm
    unfold prune_incomplete_backups
    rw [hfind]
    simp only [hm]

/-! ## Characterisation of the promotion step -/

/-- The entry list after `os.rename(incomplete, complete)`. -/
def renL (old new : List Char) (l : List Entry) : List Entry :=
  l.map (fun e => if e.name == old then { e with name := new } else e)

lemma renameFS_eq {fs : DestFS} {old new : List Char} {e0 : Entry}
    (hfe : findEntry fs old = some e0)
    (hnew : (listdir fs).contains new = false) :
    renameFS fs old new = .ok { fs with entries := renL old new fs.entries } := by
  unfold renameFS renL
  simp only [hfe, hnew]
  rfl

lemma renL_names (old new : List Char) (l : List Entry) :
    (renL old new l).map Entry.name =
      l.map (fun e => if e.name == old then new else e.name) := by
  unfold renL
  rw [List.map_map]
  congr 1
  funext e
  by_cases h : (e.name == old) = true
  · simp [Function.comp, h]
  · simp [Function.comp, h]

lemma renL_nodup {l : List Entry} {old new : List Char}
    (hnd : (l.map Entry.name).Nodup) (hnew : new ∉ l.map Entry.name) :
    ((renL old new l).map Entry.name).Nodup := by
  unfold renL
  rw [List.map_map]
  refine List.Nodup.map_on ?_ hnd.of_map
  intro x hx y hy hf
  simp only [Function.comp] at hf
  by_cases hxi : (x.name == old) = true <;> by_cases hyi : (y.name == old) = true
  · rw [beq_iff_eq] at hxi hyi
    exact name_inj hnd hx hy (by rw [hxi, hyi])
  · rw [if_pos hxi, if_neg hyi] at hf
    exfalso
    apply hnew
    have h3 : new = y.name := hf
    rw [h3]
    exact List.mem_map.mpr ⟨y, hy, rfl⟩
  · rw [if_neg hxi, if_pos hyi] at hf
    exfalso
    apply hnew
    have h3 : x.name = new := hf
    rw [← h3]
    exact List.mem_map.mpr ⟨x, hx, rfl⟩
  · rw [if_neg hxi, if_neg hyi] at hf
    exact name_inj hnd hx hy hf

lemma mem_renL_of_ne {l : List Entry} {old new : List Char} {x : Entry}
    (hx : x ∈ l) (hxn : (x.name == old) = false) : x ∈ renL old new l :=
  List.mem_map.mpr ⟨x, hx, by simp [hxn]⟩

lemma comp_mem_renL {l : List Entry} {old new : List Char} {e0 : Entry}
    (he : e0 ∈ l) (hn : e0.name = old) :
    (⟨new, e0.kind⟩ : Entry) ∈ renL old new l :=
  List.mem_map.mpr ⟨e0, he, by
    rw [if_pos (by simp [hn])]⟩

lemma renL_name_ne_old {l : List Entry} {old new : List Char}
    (hno : new ≠ old) : ∀ x ∈ renL old new l, x.name ≠ old := by
  intro x hx
  rcases List.mem_map.mp hx with ⟨e, he, rfl⟩
  by_cases h : (e.name == old) = true
  · rw [if_pos h]
    exact hno
  · rw [if_neg h]
    intro heq
    rw [heq] at h
    simp at h

lemma filter_ne_of_not_mem {l : List Entry} {n : List Char}
    (h : n ∉ l.map Entry.name) :
    l.filter (fun e => !(e.name == n)) = l := by
  have : ∀ x ∈ l, (!(x.name == n)) = true := by
    intro x hx
    have : x.name ≠ n := fun heq => h (heq ▸ List.mem_map.mpr ⟨x, hx, rfl⟩)
    simp [this]
  calc l.filter (fun e => !(e.name == n))
      = l.filter (fun _ => true) := List.filter_congr (fun x hx => by rw [this x hx])
    _ = l := List.filter_true l

lemma contains_eq_false_iff {ns : List (List Char)} {n : List Char} :
    ns.contains n = false ↔ n ∉ ns := by
  rw [← Bool.not_eq_true]
  simp [List.contains_eq_any_beq, List.any_eq_true]

/-- The destination state after a successful promotion (rename followed
by replacement of the `current` symlink) of the run with timestamp
string `ts`. -/
def promoted (fs : DestFS) (ts : List Char) : DestFS :=
  { fs with entries :=
      (((renL (incompletePref ++ (backupPref ++ ts)) (backupPref ++ ts) fs.entries).filter
        (fun e => !(e.name == currentName))) ++
       [⟨currentName, .symlink (backupPref ++ ts)⟩]) }

lemma contains_filter_self_eq_false (l : List Entry) (n : List Char) :
    (((l.filter (fun e => !(e.name == n))).map Entry.name).contains n) = false := by
  rw [contains_eq_false_iff]
  intro hm
  rcases List.mem_map.mp hm with ⟨x, hx, hxn⟩
  rcases List.mem_filter.mp hx with ⟨_, hxk⟩
  rw [hxn] at hxk
  simp at hxk

/-- Lines 296-368 of `main` on a successful transfer: the promotion
succeeds and the run continues into retention on the `promoted` state. -/
lemma main_post_transfer_promote (dest : List Char) (fs : DestFS) (ts : List Char)
    (t_ret days : Int) (e0 : Entry)
    (hfe : findEntry fs (incompletePref ++ (backupPref ++ ts)) = some e0)
    (hcomp : (listdir fs).contains (backupPref ++ ts) = false) :
    main_post_transfer dest fs ts 0 t_ret days =
      (match remove_old_backups dest (promoted fs ts) (t_ret - 60 * 60 * 24 * days) with
       | (.exn e, fs4, _) => (.uncaught e, fs4)
       | (.ok _, fs4, _) =>
         match prune_incomplete_backups dest fs4 with
         | (.exn e, fs5, _) => (.uncaught e, fs5)
         | (.ok _, fs5, _) => (.exitCode 0, fs5)) := by
  have hren := renameFS_eq hfe hcomp
  unfold main_post_transfer
  rw [if_neg (by omega), if_neg (by omega)]
  simp only [hren]
  by_cases hcur : lexists { fs with
      entries := renL (incompletePref ++ (backupPref ++ ts)) (backupPref ++ ts) fs.entries }
      currentName = true
  · rw [if_pos hcur]
    have hsym : symlinkFS
        (unlinkFS { fs with
          entries := renL (incompletePref ++ (backupPref ++ ts)) (backupPref ++ ts) fs.entries }
          currentName)
        (backupPref ++ ts) currentName = .ok (promoted fs ts) := by
      unfold symlinkFS unlinkFS delName listdir
      rw [if_neg (by rw [contains_filter_self_eq_false]; simp)]
      rfl
    rw [hsym]
  · rw [if_neg hcur]
    have hnc : currentName ∉
        (renL (incompletePref ++ (backupPref ++ ts)) (backupPref ++ ts) fs.entries).map
          Entry.name := by
      intro hm
      exact hcur (by simpa [lexists, listdir] using hm)
    have hsym : symlinkFS { fs with
        entries := renL (incompletePref ++ (backupPref ++ ts)) (backupPref ++ ts) fs.entries }
        (backupPref ++ ts) currentName = .ok (promoted fs ts) := by
      unfold symlinkFS
      rw [if_neg (by simpa [lexists, listdir, contains_eq_false_iff] using hnc)]
      unfold promoted
      rw [filter_ne_of_not_mem hnc]
    rw [hsym]

/-! ## Facts about names and the promoted state -/

lemma ne_of_head {a b : Char} (hab : (a == b) = false) (p q s : List Char) :
    (a :: p) ++ s ≠ b :: q := by
  intro h
  rw [List.cons_append] at h
  injection h with h1 _
  rw [h1] at hab
  simp at hab

lemma compName_ne_current (ts : List Char) : backupPref ++ ts ≠ currentName :=
  ne_of_head (by decide) "ackup-".toList "urrent".toList ts

lemma compName_ne_incName (ts ts' : List Char) :
    backupPref ++ ts ≠ incompletePref ++ ts' :=
  ne_of_head (by decide) "ackup-".toList ("ncomplete-".toList ++ ts') ts

lemma currentName_ne_incName (ts : List Char) :
    currentName ≠ incompletePref ++ ts := by
  intro h
  rw [show incompletePref ++ ts = 'i' :: ("ncomplete-".toList ++ ts) from rfl] at h
  injection h with h1 _
  cases h1

lemma startswith_backup_comp (ts : List Char) :
    startswith backupPref (backupPref ++ ts) = true := rfl

lemma startswith_incomplete_comp (ts : List Char) :
    startswith incompletePref (backupPref ++ ts) = false := rfl

lemma delCondInc_comp (dest : List Char) (m : Int) (ts : List Char) (k : EntryKind) :
    delCondInc dest m ⟨backupPref ++ ts, k⟩ = false := by
  unfold delCondInc isIncompleteDir
  simp [startswith_incomplete_comp]

lemma delCondOld_symlink (dest : List Char) (T : Int) (n t : List Char) :
    delCondOld dest T ⟨n, .symlink t⟩ = false := by
  unfold delCondOld isCompleteDir EntryKind.isDir
  simp

lemma delCondInc_symlink (dest : List Char) (m : Int) (n t : List Char) :
    delCondInc dest m ⟨n, .symlink t⟩ = false := by
  unfold delCondInc isIncompleteDir EntryKind.isDir
  simp

lemma filter_name_eq_single {l : List Entry} (hnd : (l.map Entry.name).Nodup)
    {e : Entry} (he : e ∈ l) :
    l.filter (fun x => x.name == e.name) = [e] := by
  induction l with
  | nil => cases he
  | cons a t ih =>
    rw [List.map_cons, List.nodup_cons] at hnd
    rcases List.mem_cons.mp he with rfl | ht
    · rw [List.filter_cons_of_pos (by simp)]
      have ht0 : t.filter (fun x => x.name == e.name) = [] := by
        rw [List.filter_eq_nil_iff]
        intro x hx
        simp only [Bool.not_eq_true, beq_eq_false_iff_ne]
        intro h
        exact hnd.1 (h ▸ List.mem_map.mpr ⟨x, hx, rfl⟩)
      rw [ht0]
    · have hne : (a.name == e.name) = false :=
        beq_eq_false_iff_ne.mpr (fun h => hnd.1 (h ▸ List.mem_map.mpr ⟨e, ht, rfl⟩))
      rw [List.filter_cons_of_neg (by simp [hne])]
      exact ih hnd.2 ht

lemma promoted_failing (fs : DestFS) (ts : List Char) :
    (promoted fs ts).failing = fs.failing := rfl

lemma promoted_marker (fs : DestFS) (ts : List Char) :
    (promoted fs ts).marker = fs.marker := rfl

lemma promoted_nodup {fs : DestFS} {ts : List Char} (hnd : nodupNames fs)
    (hcomp : (backupPref ++ ts) ∉ listdir fs) :
    nodupNames (promoted fs ts) := by
  unfold nodupNames promoted
  rw [List.map_append]
  rw [List.nodup_append]
  refine ⟨?_, by simp, ?_⟩
  · exact List.Nodup.sublist
      (List.Sublist.map Entry.name (List.filter_sublist _)) (renL_nodup hnd hcomp)
  · intro n hn hm
    simp only [List.map_cons, List.map_nil, List.mem_singleton] at hm
    subst hm
    have := contains_filter_self_eq_false
      (renL (incompletePref ++ (backupPref ++ ts)) (backupPref ++ ts) fs.entries) currentName
    rw [contains_eq_false_iff] at this
    exact this hn

lemma promoted_comp_mem {fs : DestFS} {ts : List Char}
    (hinc : findEntry fs (incompletePref ++ (backupPref ++ ts)) =
      some ⟨incompletePref ++ (backupPref ++ ts), .dir⟩) :
    (⟨backupPref ++ ts, .dir⟩ : Entry) ∈ (promoted fs ts).entries := by
  unfold promoted
  refine List.mem_append_left _ ?_
  rw [List.mem_filter]
  constructor
  · exact comp_mem_renL (mem_of_findEntry hinc) rfl
  · simp [compName_ne_current ts]

lemma promoted_cur_mem (fs : DestFS) (ts : List Char) :
    (⟨currentName, .symlink (backupPref ++ ts)⟩ : Entry) ∈ (promoted fs ts).entries := by
  unfold promoted
  exact List.mem_append_right _ (by simp)

lemma promoted_no_inc {fs : DestFS} {ts : List Char} :
    ∀ x ∈ (promoted fs ts).entries,
      x.name ≠ incompletePref ++ (backupPref ++ ts) := by
  unfold promoted
  intro x hx
  rcases List.mem_append.mp hx with h | h
  · exact renL_name_ne_old (compName_ne_incName _ _) x (List.mem_filter.mp h).1
  · simp only [List.mem_singleton] at h
    subst h
    exact currentName_ne_incName _

/-- A run with a successful transfer, from promotion through retention
and unlock: it exits 0, releases the marker, and its final listing is
the promoted listing minus the age-pass deletions, possibly minus the
incomplete-pass deletions. -/
lemma run_promote_cases (dest : List Char) (fs : DestFS) (ts : List Char)
    (t_ret days : Int)
    (hfail : fs.failing = []) (hnd : nodupNames fs)
    (hinc : findEntry fs (incompletePref ++ (backupPref ++ ts)) =
      some ⟨incompletePref ++ (backupPref ++ ts), .dir⟩)
    (hcomp : (listdir fs).contains (backupPref ++ ts) = false) :
    (run_after_lock dest fs ts 0 t_ret days).1 = .exitCode 0 ∧
    (run_after_lock dest fs ts 0 t_ret days).2.marker = releaseLock fs.marker ∧
    (run_after_lock dest fs ts 0 t_ret days).2.failing = [] ∧
    ((run_after_lock dest fs ts 0 t_ret days).2.entries =
      (promoted fs ts).entries.filter
        (fun e => !delCondOld dest (t_ret - 60 * 60 * 24 * days) e) ∨
     ∃ m, (run_after_lock dest fs ts 0 t_ret days).2.entries =
      ((promoted fs ts).entries.filter
        (fun e => !delCondOld dest (t_ret - 60 * 60 * 24 * days) e)).filter
        (fun e => !delCondInc dest m e)) := by
  have hcompmem : (backupPref ++ ts) ∉ listdir fs := contains_eq_false_iff.mp hcomp
  have hndP : nodupNames (promoted fs ts) := promoted_nodup hnd hcompmem
  have hfailP : (promoted fs ts).failing = [] := by rw [promoted_failing, hfail]
  have hrem := remove_old_backups_spec dest (promoted fs ts)
    (t_ret - 60 * 60 * 24 * days) hfailP hndP
  have hfail4 : ({ promoted fs ts with entries := ((promoted fs ts).entries.filter
      (fun x => !delCondOld dest (t_ret - 60 * 60 * 24 * days) x)) } : DestFS).failing = [] :=
    hfailP
  have hnd4 : nodupNames { promoted fs ts with entries := ((promoted fs ts).entries.filter
      (fun x => !delCondOld dest (t_ret - 60 * 60 * 24 * days) x)) } := by
    unfold nodupNames
    exact List.Nodup.sublist
      (List.Sublist.map Entry.name (List.filter_sublist _)) hndP
  have hprune := prune_incomplete_backups_spec dest
    { promoted fs ts with entries := ((promoted fs ts).entries.filter
      (fun x => !delCondOld dest (t_ret - 60 * 60 * 24 * days) x)) } hfail4 hnd4
  unfold run_after_lock
  rw [main_post_transfer_promote dest fs ts t_ret days _ hinc hcomp]
  simp only [hrem]
  cases hsn : specNewest dest
      (({ promoted fs ts with entries := ((promoted fs ts).entries.filter
        (fun x => !delCondOld dest (t_ret - 60 * 60 * 24 * days) x)) } : DestFS).entries) with
  | none =>
    simp only [hprune.2 hsn]
    exact ⟨trivial, by rw [promoted_marker], hfailP, Or.inl trivial⟩
  | some m =>
    simp only [hprune.1 m hsn]
    exact ⟨trivial, by rw [promoted_marker], hfailP, Or.inr ⟨m, rfl⟩⟩

/-! ## Claim theorems -/

/-- C1: on a destination whose lock marker exists with a readable record
whose `start_time` parses to `lt`, acquisition with boot time `boot`
behaves as the spec says: if `lt` is strictly earlier than `boot` the
stale marker is deleted and a fresh acquisition succeeds, writing a new
record; if `lt` is at or after `boot` the marker is preserved and the
attempt raises the Busy `IOError`, which `main` treats as "already in
progress". -/
theorem c1_stale_lock_reclamation (boot lt : Int) (st ns : List Char)
    (hp : parse_time_full st = some lt) :
    (lt < boot →
      lock_dest ⟨some (some (.json st)), false, false⟩ boot ns =
        (.ok (), ⟨some (some (.json ns)), false, false⟩)) ∧
    (boot ≤ lt →
      lock_dest ⟨some (some (.json st)), false, false⟩ boot ns =
        (.exn .acquireError, ⟨some (some (.json st)), false, false⟩) ∧
      main_lock_phase ⟨some (some (.json st)), false, false⟩ boot ns =
        .busyExit ⟨some (some (.json st)), false, false⟩) := by
  constructor
  · intro h
    unfold lock_dest
    simp only [hp]
    rw [if_pos (by omega : boot > lt)]
    rfl
  · intro h
    have h1 : lock_dest ⟨some (some (.json st)), false, false⟩ boot ns =
        (.exn .acquireError, ⟨some (some (.json st)), false, false⟩) := by
      unfold lock_dest
      simp only [hp]
      rw [if_neg (by omega : ¬ boot > lt)]
    refine ⟨h1, ?_⟩
    unfold main_lock_phase
    simp only [h1]
    rfl

theorem c1_stale_lock_reclamation_witness :
    parse_time_full "2024-01-01T00:00:00".toList = some 1704067200 ∧
    lock_dest ⟨some (some (.json "2024-01-01T00:00:00".toList)), false, false⟩
        1704067201 "2024-06-01T00:00:00".toList =
      (.ok (), ⟨some (some (.json "2024-06-01T00:00:00".toList)), false, false⟩) ∧
    main_lock_phase ⟨some (some (.json "2024-01-01T00:00:00".toList)), false, false⟩
        1704067200 "2024-06-01T00:00:00".toList =
      .busyExit ⟨some (some (.json "2024-01-01T00:00:00".toList)), false, false⟩ :=
  ⟨by decide,
   (c1_stale_lock_reclamation 1704067201 1704067200 _ _ (by decide)).1 (by decide),
   ((c1_stale_lock_reclamation 1704067200 1704067200 _ _ (by decide)).2 (by decide)).2⟩

/-- C2 counterexample: with a lock marker whose `info` file is not valid
JSON, the acquisition does not report Busy as the claim states — the
`json.JSONDecodeError` (a `ValueError`, not caught by `except
FileNotFoundError` in `lock_dest` nor by `except IOError` in `main`)
propagates as a fatal uncaught exception. -/
theorem c2_corrupt_record_counterexample :
    main_lock_phase ⟨some (some .badJson), false, false⟩ 0 [] =
      .fatal .valueError ⟨some (some .badJson), false, false⟩ ∧
    isIOError .valueError = false := by
  decide

/-- C2 amended: an existing marker whose record is unreadable or corrupt
is left untouched, but the acquisition does not report Busy: invalid
JSON raises `ValueError`, a record without `start_time` raises
`KeyError`, and an unparseable `start_time` raises `ValueError`, all
propagating out of `main` as fatal uncaught exceptions.  Only a marker
directory whose `info` file is missing entirely yields Busy (the read
raises the caught `FileNotFoundError` and `os.mkdir` then fails). -/
theorem c2_corrupt_record_amended (boot : Int) (ns st : List Char)
    (hst : parse_time_full st = none) :
    main_lock_phase ⟨some (some .badJson), false, false⟩ boot ns =
      .fatal .valueError ⟨some (some .badJson), false, false⟩ ∧
    main_lock_phase ⟨some (some .noStartTime), false, false⟩ boot ns =
      .fatal .keyError ⟨some (some .noStartTime), false, false⟩ ∧
    main_lock_phase ⟨some (some (.json st)), false, false⟩ boot ns =
      .fatal .valueError ⟨some (some (.json st)), false, false⟩ ∧
    main_lock_phase ⟨some none, false, false⟩ boot ns =
      .busyExit ⟨some none, false, false⟩ := by
  refine ⟨rfl, rfl, ?_, rfl⟩
  unfold main_lock_phase lock_dest
  simp only [hst]
  rfl

theorem c2_corrupt_record_amended_witness :
    parse_time_full "not a timestamp".toList = none ∧
    main_lock_phase ⟨some (some (.json "not a timestamp".toList)), false, false⟩ 0 [] =
      .fatal .valueError ⟨some (some (.json "not a timestamp".toList)), false, false⟩ :=
  ⟨by decide, (c2_corrupt_record_amended 0 [] _ (by decide)).2.2.1⟩

/-- C3: the claim (and the spec) require lock I/O failures other than
"already exists" to propagate as fatal, distinct from Busy.  The code
violates this: in Python 3 `IOError` is an alias of `OSError`, so
`main`'s `except IOError` also catches the `PermissionError` raised when
`os.mkdir` cannot create the marker, and exits 0 with "Backup already in
progress".  Evaluated here at a destination where marker creation is
denied: the raised error is a `PermissionError`, it is in the `IOError`
hierarchy, and `main` maps it to the Busy exit. -/
theorem c3_permission_error_masked_as_busy :
    lock_dest ⟨none, true, false⟩ 0 [] = (.exn .permissionError, ⟨none, true, false⟩) ∧
    isIOError .permissionError = true ∧
    main_lock_phase ⟨none, true, false⟩ 0 [] = .busyExit ⟨none, true, false⟩ ∧
    main_lock_phase ⟨none, false, true⟩ 0 [] = .busyExit ⟨some none, false, true⟩ := by
  decide

/-- C8 counterexample: the claim says release deletes the marker
directory whenever it still exists.  But the release closure checks
`os.path.exists(info_path)` first: on a marker directory whose `info`
file was removed externally (state `some none`) the directory still
exists, yet release leaves it in place. -/
theorem c8_release_counterexample :
    releaseLock (some none) = some none ∧ (some none : LockState) ≠ none := by
  decide

/-- C8 amended: release deletes the marker directory when both the
directory and its `info` file still exist; if the whole marker is gone
it does nothing, and if only the `info` file is gone it also does
nothing, leaving the directory in place.  In every case it raises no
error, and it is idempotent. -/
theorem c8_release_amended :
    (∀ c : InfoContent, releaseLock (some (some c)) = none) ∧
    releaseLock (some none) = some none ∧
    releaseLock none = none ∧
    (∀ st : LockState, releaseLock (releaseLock st) = releaseLock st) := by
  refine ⟨fun c => rfl, rfl, rfl, fun st => ?_⟩
  rcases st with _ | (_ | c) <;> rfl

/-- C4: the age pass with cutoff `T` (in `main`, `T = time.time() -
60*60*24*days_to_keep`) removes exactly the `backup-*` directories whose
trailing timestamp parses to a value `≤ T` — the inclusive cutoff of
`backup_timestamp - timestamp <= 0` — and reports as anomalies exactly
the `backup-*` directories whose timestamp does not parse, never
deleting them. -/
theorem c4_age_pruning_exact (dest : List Char) (fs : DestFS) (T : Int)
    (hfail : fs.failing = []) (hnd : nodupNames fs) :
    remove_old_backups dest fs T =
      (.ok (),
       { fs with entries := (fs.entries.filter (fun e => !delCondOld dest T e)) },
       (fs.entries.filter (anomOld dest)).map Entry.name) ∧
    (∀ e ∈ fs.entries, anomOld dest e = true →
      e ∈ (remove_old_backups dest fs T).2.1.entries) := by
  have h1 := remove_old_backups_spec dest fs T hfail hnd
  refine ⟨h1, ?_⟩
  intro e he ha
  rw [h1]
  refine List.mem_filter.mpr ⟨he, ?_⟩
  have hd : delCondOld dest T e = false := by
    rcases Bool.and_eq_true_iff.mp ha with ⟨h2, h3⟩
    rw [Option.isNone_iff_eq_none] at h3
    unfold delCondOld
    rw [h3]
    simp
  simp [hd]

def wdest : List Char := "/mnt/backup".toList

def c4fs : DestFS :=
  ⟨[⟨"backup-2024-01-01T00:00:00".toList, .dir⟩,
    ⟨"backup-2024-06-01T00:00:00".toList, .dir⟩,
    ⟨"backup-junk".toList, .dir⟩,
    ⟨"notes.txt".toList, .file⟩], [], none⟩

theorem c4_age_pruning_exact_witness :
    c4fs.failing = [] ∧ nodupNames c4fs ∧
    remove_old_backups wdest c4fs 1704100000 =
      (.ok (),
       { c4fs with entries := (c4fs.entries.filter
           (fun e => !delCondOld wdest 1704100000 e)) },
       (c4fs.entries.filter (anomOld wdest)).map Entry.name) :=
  ⟨rfl, by decide, (c4_age_pruning_exact wdest c4fs 1704100000 rfl (by decide)).1⟩

/-- C5: the incomplete pass computes `newest` as the maximum parsed
timestamp over the complete (`backup-*`) directories; when it exists it
deletes exactly the `incomplete-*` directories whose timestamp is
strictly older (`incomplete_timestamp - newest_timestamp < 0`; equal or
newer ones are preserved by the filter), and when the listing holds no
complete backup directory at all it deletes nothing and reports the
distinguishable no-baseline condition. -/
theorem c5_incomplete_pruning_exact (dest : List Char) (fs : DestFS)
    (hfail : fs.failing = []) (hnd : nodupNames fs) :
    (∀ m, specNewest dest fs.entries = some m →
      prune_incomplete_backups dest fs =
        (.ok (),
         { fs with entries := (fs.entries.filter (fun e => !delCondInc dest m e)) },
         false) ∧
      (∃ e ∈ fs.entries, isCompleteDir e = true ∧
        parse_backup_time (dest ++ '/' :: e.name) = some m) ∧
      (∀ e ∈ fs.entries, isCompleteDir e = true →
        ∀ t, parse_backup_time (dest ++ '/' :: e.name) = some t → t ≤ m)) ∧
    ((∀ e ∈ fs.entries, isCompleteDir e = false) →
      prune_incomplete_backups dest fs = (.ok (), fs, true)) := by
  have hs := prune_incomplete_backups_spec dest fs hfail hnd
  constructor
  · intro m hm
    have hmax := foldl_newestStep_max dest fs.entries none m
      (by rw [← specNewest_eq_foldl]; exact hm)
    refine ⟨hs.1 m hm, ?_, hmax.2.2⟩
    rcases hmax.1 with h | h
    · cases h
    · exact h
  · intro hno
    have hn : specNewest dest fs.entries = none := by
      rw [specNewest_eq_foldl]
      exact specNewest_none_of_no_complete dest fs.entries hno none
    exact hs.2 hn

def c5fs : DestFS :=
  ⟨[⟨"backup-2024-01-01T00:00:00".toList, .dir⟩,
    ⟨"incomplete-backup-2024-01-01T00:00:01".toList, .dir⟩,
    ⟨"incomplete-backup-2023-12-31T00:00:00".toList, .dir⟩], [], none⟩

theorem c5_incomplete_pruning_exact_witness :
    c5fs.failing = [] ∧ nodupNames c5fs ∧
    specNewest wdest c5fs.entries = some 1704067200 ∧
    prune_incomplete_backups wdest c5fs =
      (.ok (),
       { c5fs with entries := (c5fs.entries.filter
           (fun e => !delCondInc wdest 1704067200 e)) },
       false) :=
  ⟨rfl, by decide, by decide,
   ((c5_incomplete_pruning_exact wdest c5fs rfl (by decide)).1 1704067200 (by decide)).1⟩

/-- C6: the claim says a run whose transfer engine exits with status
`c ≠ 0` exits with status `c`.  Lines 348-351 (`if rsync_result.exit_code
!= 0: return rsync_result.exit_code`) show that was the intent, but the
engine is invoked through the `sh` library with no `_ok_code`, so the
call at line 305 raises `sh.ErrorReturnCode` on any non-zero exit and
line 348's branch is unreachable: the exception — not an `OSError`, so
caught by nothing — propagates out of `main` and the process dies with a
traceback and exit status 1, not `c`.  The claim's remaining parts do
hold, as this theorem shows: the exception is raised before any rename,
so the listing is completely unchanged (no `backup-<t>`, `current`
untouched, the incomplete directory left in place), no retention pass
runs, and the `atexit` unlock still removes the marker. -/
theorem c6_failed_transfer_raises (dest : List Char) (fs : DestFS)
    (ts : List Char) (c t_ret days : Int) (i : InfoContent)
    (hc : c ≠ 0) (hm : fs.marker = some (some i)) :
    run_after_lock dest fs ts c t_ret days =
      (.uncaught (.errorReturnCode c), { fs with marker := none }) ∧
    isIOError (.errorReturnCode c) = false ∧
    RunOutcome.uncaught (.errorReturnCode c) ≠ .exitCode c := by
  have h1 : main_post_transfer dest fs ts c t_ret days =
      (.uncaught (.errorReturnCode c), fs) := by
    unfold main_post_transfer
    rw [if_pos hc]
  refine ⟨?_, rfl, by simp⟩
  unfold run_after_lock
  simp only [h1]
  have h2 : releaseLock fs.marker = none := by
    rw [hm]
    rfl
  rw [h2]

def c6fs : DestFS :=
  ⟨[⟨"incomplete-backup-2024-06-01T00:00:00".toList, .dir⟩],
   [], some (some (.json "2024-06-01T00:00:00".toList))⟩

theorem c6_failed_transfer_raises_witness :
    (23 : Int) ≠ 0 ∧
    c6fs.marker = some (some (.json "2024-06-01T00:00:00".toList)) ∧
    run_after_lock wdest c6fs "2024-06-01T00:00:00".toList 23 1717200000 365 =
      (.uncaught (.errorReturnCode 23), { c6fs with marker := none }) :=
  ⟨by decide, rfl,
   (c6_failed_transfer_raises wdest c6fs _ 23 1717200000 365 _ (by decide) rfl).1⟩

def c7fs : DestFS :=
  ⟨[⟨"incomplete-backup-2024-06-01T00:00:00".toList, .dir⟩],
   [], some (some (.json "2024-06-01T00:00:00".toList))⟩

/-- C7 counterexample: a run with `days_to_keep = 0` invoked at the run
timestamp itself (`t_ret` equal to the backup timestamp, epoch
1717200000 = 2024-06-01T00:00:00).  The transfer succeeds and the run
exits 0, yet afterwards no `backup-<t>` directory exists — the age pass,
whose cutoff `t_ret - 0` is not before `t`, deleted the directory the
same run had just promoted — and `current` dangles, pointing at the now
nonexistent name.  This falsifies the claim as stated, which promises
exactly one `backup-<t>` directory after every successful run. -/
theorem c7_promotion_counterexample :
    run_after_lock wdest c7fs "2024-06-01T00:00:00".toList 0 1717200000 0 =
      (.exitCode 0,
       ⟨[⟨currentName, .symlink "backup-2024-06-01T00:00:00".toList⟩], [], none⟩) ∧
    (([⟨currentName, .symlink "backup-2024-06-01T00:00:00".toList⟩] : List Entry).map
      Entry.name).contains "backup-2024-06-01T00:00:00".toList = false := by
  decide

/-- C7 amended: after every successful run with timestamp string `ts`
whose age-retention cutoff `t_ret - 60*60*24*days` is strictly earlier
than the new backup's timestamp, exactly one directory named
`backup-<ts>` exists, no `incomplete-backup-<ts>` directory exists,
and `current` is a symlink whose target is the relative base name
`backup-<ts>` (never absolute); a pre-existing `current` link is
replaced and its absence is tolerated (the hypotheses place no
constraint on `current`). -/
theorem c7_promotion_amended (dest : List Char) (fs : DestFS) (ts : List Char)
    (t_ret days tsv : Int)
    (hfail : fs.failing = []) (hnd : nodupNames fs)
    (hinc : findEntry fs (incompletePref ++ (backupPref ++ ts)) =
      some ⟨incompletePref ++ (backupPref ++ ts), .dir⟩)
    (hcomp : (listdir fs).contains (backupPref ++ ts) = false)
    (hparse : parse_backup_time (dest ++ '/' :: (backupPref ++ ts)) = some tsv)
    (hcut : t_ret - 60 * 60 * 24 * days < tsv) :
    (run_after_lock dest fs ts 0 t_ret days).1 = .exitCode 0 ∧
    (run_after_lock dest fs ts 0 t_ret days).2.entries.filter
        (fun e => e.name == backupPref ++ ts) = [⟨backupPref ++ ts, .dir⟩] ∧
    (∀ e ∈ (run_after_lock dest fs ts 0 t_ret days).2.entries,
      e.name ≠ incompletePref ++ (backupPref ++ ts)) ∧
    findEntry (run_after_lock dest fs ts 0 t_ret days).2 currentName =
      some ⟨currentName, .symlink (backupPref ++ ts)⟩ ∧
    (backupPref ++ ts).head? ≠ some '/' := by
  obtain ⟨hout, hmark, hfail5, hcase⟩ :=
    run_promote_cases dest fs ts t_ret days hfail hnd hinc hcomp
  have hcompmem := contains_eq_false_iff.mp hcomp
  have hndP := promoted_nodup hnd hcompmem
  have hcompE := promoted_comp_mem hinc
  have hcurE := promoted_cur_mem fs ts
  have hdelC : delCondOld dest (t_ret - 60 * 60 * 24 * days)
      ⟨backupPref ++ ts, .dir⟩ = false := by
    unfold delCondOld isCompleteDir EntryKind.isDir
    simp [startswith_backup_comp, hparse]
    omega
  have hndA : (((promoted fs ts).entries.filter
      (fun e => !delCondOld dest (t_ret - 60 * 60 * 24 * days) e)).map Entry.name).Nodup :=
    List.Nodup.sublist (List.Sublist.map Entry.name (List.filter_sublist _)) hndP
  have hAcomp : (⟨backupPref ++ ts, .dir⟩ : Entry) ∈
      (promoted fs ts).entries.filter
        (fun e => !delCondOld dest (t_ret - 60 * 60 * 24 * days) e) :=
    List.mem_filter.mpr ⟨hcompE, by rw [hdelC]; rfl⟩
  have hAcur : (⟨currentName, .symlink (backupPref ++ ts)⟩ : Entry) ∈
      (promoted fs ts).entries.filter
        (fun e => !delCondOld dest (t_ret - 60 * 60 * 24 * days) e) :=
    List.mem_filter.mpr ⟨hcurE, by rw [delCondOld_symlink]; rfl⟩
  have hfacts : (⟨backupPref ++ ts, .dir⟩ : Entry) ∈
        (run_after_lock dest fs ts 0 t_ret days).2.entries ∧
      (⟨currentName, .symlink (backupPref ++ ts)⟩ : Entry) ∈
        (run_after_lock dest fs ts 0 t_ret days).2.entries ∧
      nodupNames (run_after_lock dest fs ts 0 t_ret days).2 ∧
      (∀ e ∈ (run_after_lock dest fs ts 0 t_ret days).2.entries,
        e ∈ (promoted fs ts).entries) := by
    rcases hcase with hE | ⟨m, hE⟩
    · refine ⟨by rw [hE]; exact hAcomp, by rw [hE]; exact hAcur, ?_, ?_⟩
      · unfold nodupNames
        rw [hE]
        exact hndA
      · intro e he
        rw [hE] at he
        exact (List.mem_filter.mp he).1
    · refine ⟨?_, ?_, ?_, ?_⟩
      · rw [hE]
        exact List.mem_filter.mpr ⟨hAcomp, by rw [delCondInc_comp]; rfl⟩
      · rw [hE]
        exact List.mem_filter.mpr ⟨hAcur, by rw [delCondInc_symlink]; rfl⟩
      · unfold nodupNames
        rw [hE]
        exact List.Nodup.sublist
          (List.Sublist.map Entry.name (List.filter_sublist _)) hndA
      · intro e he
        rw [hE] at he
        exact (List.mem_filter.mp (List.mem_filter.mp he).1).1
  obtain ⟨h5c, h5cur, h5nd, h5sub⟩ := hfacts
  refine ⟨hout, ?_, ?_, ?_, ?_⟩
  · exact filter_name_eq_single h5nd h5c
  · intro e he
    exact promoted_no_inc e (h5sub e he)
  · exact findEntry_eq_of_mem h5nd h5cur
  · simp [show (backupPref ++ ts).head? = some 'b' from rfl]

def c7afs : DestFS :=
  ⟨[⟨"incomplete-backup-2024-06-01T00:00:00".toList, .dir⟩,
    ⟨currentName, .symlink "backup-2024-01-01T00:00:00".toList⟩],
   [], some (some (.json "2024-06-01T00:00:00".toList))⟩

theorem c7_promotion_amended_witness :
    c7afs.failing = [] ∧ nodupNames c7afs ∧
    findEntry c7afs (incompletePref ++ (backupPref ++ "2024-06-01T00:00:00".toList)) =
      some ⟨incompletePref ++ (backupPref ++ "2024-06-01T00:00:00".toList), .dir⟩ ∧
    parse_backup_time (wdest ++ '/' :: (backupPref ++ "2024-06-01T00:00:00".toList)) =
      some 1717200000 ∧
    (run_after_lock wdest c7afs "2024-06-01T00:00:00".toList 0 1717200000 365).1 =
      .exitCode 0 ∧
    findEntry (run_after_lock wdest c7afs "2024-06-01T00:00:00".toList 0 1717200000 365).2
        currentName =
      some ⟨currentName, .symlink (backupPref ++ "2024-06-01T00:00:00".toList)⟩ :=
  ⟨rfl, by decide, by decide, by decide,
   (c7_promotion_amended wdest c7afs _ 1717200000 365 1717200000 rfl (by decide)
     (by decide) (by decide) (by decide) (by decide)).1,
   (c7_promotion_amended wdest c7afs _ 1717200000 365 1717200000 rfl (by decide)
     (by decide) (by decide) (by decide) (by decide)).2.2.2.1⟩

def c9fs : DestFS :=
  ⟨[⟨"incomplete-backup-2024-06-01T00:00:00".toList, .dir⟩,
    ⟨"backup-2024-01-01T00:00:00".toList, .dir⟩,
    ⟨"backup-2024-01-02T00:00:00".toList, .dir⟩],
   ["backup-2024-01-01T00:00:00".toList],
   some (some (.json "2024-06-01T00:00:00".toList))⟩

/-- C9 counterexample: a successful transfer followed by the age pass on
a listing holding two backups older than the 30-day cutoff, where
deleting the first one fails.  Contrary to the claim, the pass does not
continue: the `OSError` from the unguarded `shutil.rmtree` aborts it —
the second old backup, itself deletable (second conjunct), is still
present in the final listing — and the exception propagates out of
`main`, so the run no longer exits 0 (the `atexit` unlock still runs). -/
theorem c9_deletion_failure_counterexample :
    run_after_lock wdest c9fs "2024-06-01T00:00:00".toList 0 1717200000 30 =
      (.uncaught .removeError,
       ⟨[⟨"backup-2024-06-01T00:00:00".toList, .dir⟩,
         ⟨"backup-2024-01-01T00:00:00".toList, .dir⟩,
         ⟨"backup-2024-01-02T00:00:00".toList, .dir⟩,
         ⟨currentName, .symlink "backup-2024-06-01T00:00:00".toList⟩],
        ["backup-2024-01-01T00:00:00".toList], none⟩) ∧
    delCondOld wdest (1717200000 - 60 * 60 * 24 * 30)
      ⟨"backup-2024-01-02T00:00:00".toList, .dir⟩ = true ∧
    (.uncaught .removeError : RunOutcome) ≠ .exitCode 0 := by
  decide

/-- C9 amended: in either pruning pass, a whole-directory-tree deletion
failure is not contained: the `OSError` raised by `shutil.rmtree` aborts
the pass at that entry and propagates.  With the listing split as
`pre ++ bad :: post` around the first faulting deletable entry, the pass
deletes the deletable entries of `pre`, then returns the exception:
`bad` and every entry of `post` are left untouched, and (in the age
pass) only the anomalies of `pre` have been reported.  The exception
escapes `main` uncaught and changes the run's exit status. -/
theorem c9_deletion_failure_aborts_amended :
    (∀ (dest : List Char) (fs : DestFS) (T : Int)
       (pre : List Entry) (bad : Entry) (post : List Entry),
      nodupNames fs → fs.entries = pre ++ bad :: post →
      (∀ e ∈ pre, delCondOld dest T e = true → fs.failing.contains e.name = false) →
      delCondOld dest T bad = true → fs.failing.contains bad.name = true →
      remove_old_backups dest fs T =
        (.exn .removeError,
         { fs with entries := (fs.entries.filter
             (fun x => !((pre.map Entry.name).contains x.name && delCondOld dest T x))) },
         (pre.filter (anomOld dest)).map Entry.name)) ∧
    (∀ (dest : List Char) (fs : DestFS) (m : Int)
       (pre : List Entry) (bad : Entry) (post : List Entry),
      nodupNames fs → fs.entries = pre ++ bad :: post →
      specNewest dest fs.entries = some m →
      (∀ e ∈ pre, delCondInc dest m e = true → fs.failing.contains e.name = false) →
      delCondInc dest m bad = true → fs.failing.contains bad.name = true →
      prune_incomplete_backups dest fs =
        (.exn .removeError,
         { fs with entries := (fs.entries.filter
             (fun x => !((pre.map Entry.name).contains x.name && delCondInc dest m x))) },
         false)) := by
  constructor
  · intro dest fs T pre bad post hnd hsplit hsafe hdel hbadfail
    have hmem : ∀ e ∈ pre ++ bad :: post, findEntry fs e.name = some e := by
      intro e he
      exact findEntry_eq_of_mem hnd (hsplit ▸ he)
    have hnes : ((pre ++ bad :: post).map Entry.name).Nodup := by
      rw [← hsplit]
      exact hnd
    have hlist : listdir fs = (pre ++ bad :: post).map Entry.name := by
      unfold listdir
      rw [hsplit]
    unfold remove_old_backups
    rw [hlist]
    exact removeGo_abort dest T pre fs [] bad post hnd hmem hnes hsafe hdel hbadfail
  · intro dest fs m pre bad post hnd hsplit hsn hsafe hdel hbadfail
    have hmem : ∀ e ∈ pre ++ bad :: post, findEntry fs e.name = some e := by
      intro e he
      exact findEntry_eq_of_mem hnd (hsplit ▸ he)
    have hnes : ((pre ++ bad :: post).map Entry.name).Nodup := by
      rw [← hsplit]
      exact hnd
    have hfind : findNewestGo dest fs (listdir fs) none = specNewest dest fs.entries := by
      unfold listdir
      rw [findNewestGo_eq dest fs fs.entries none
        (fun e he => findEntry_eq_of_mem hnd he), specNewest_eq_foldl]
    unfold prune_incomplete_backups
    rw [hfind]
    simp only [hsn]
    have hlist : listdir fs = (pre ++ bad :: post).map Entry.name := by
      unfold listdir
      rw [hsplit]
    rw [hlist]
    rw [pruneGo_abort dest m pre fs bad post hnd hmem hnes hsafe hdel hbadfail]

def c9afs : DestFS :=
  ⟨[⟨"backup-2024-01-01T00:00:00".toList, .dir⟩,
    ⟨"backup-2024-01-02T00:00:00".toList, .dir⟩],
   ["backup-2024-01-01T00:00:00".toList], none⟩

def c9bfs : DestFS :=
  ⟨[⟨"backup-2024-01-01T00:00:00".toList, .dir⟩,
    ⟨"incomplete-backup-2023-12-31T00:00:00".toList, .dir⟩],
   ["incomplete-backup-2023-12-31T00:00:00".toList], none⟩

theorem c9_deletion_failure_aborts_amended_witness :
    nodupNames c9afs ∧
    delCondOld wdest 1717200000 ⟨"backup-2024-01-01T00:00:00".toList, .dir⟩ = true ∧
    remove_old_backups wdest c9afs 1717200000 =
      (.exn .removeError,
       { c9afs with entries := (c9afs.entries.filter
           (fun x => !((([] : List Entry).map Entry.name).contains x.name &&
             delCondOld wdest 1717200000 x))) },
       (([] : List Entry).filter (anomOld wdest)).map Entry.name) ∧
    specNewest wdest c9bfs.entries = some 1704067200 ∧
    prune_incomplete_backups wdest c9bfs =
      (.exn .removeError,
       { c9bfs with entries := (c9bfs.entries.filter
           (fun x => !((([⟨"backup-2024-01-01T00:00:00".toList, .dir⟩] : List Entry).map
             Entry.name).contains x.name && delCondInc wdest 1704067200 x))) },
       false) :=
  ⟨by decide, by decide,
   c9_deletion_failure_aborts_amended.1 wdest c9afs 1717200000 []
     ⟨"backup-2024-01-01T00:00:00".toList, .dir⟩
     [⟨"backup-2024-01-02T00:00:00".toList, .dir⟩]
     (by decide) rfl (by decide) (by decide) (by decide),
   by decide,
   c9_deletion_failure_aborts_amended.2 wdest c9bfs 1704067200
     [⟨"backup-2024-01-01T00:00:00".toList, .dir⟩]
     ⟨"incomplete-backup-2023-12-31T00:00:00".toList, .dir⟩ []
     (by decide) rfl (by decide) (by decide) (by decide) (by decide)⟩

/-- C10: `days_to_keep` is never validated (argparse takes any int at
backup.py lines 55-56), and for a run invoked with `days ≤ 0` the age
cutoff `t_ret - 60*60*24*days` is at or after the run's own timestamp
`t_start` (first conjunct).  The run still exits 0, but the retention
step deletes the `backup-<formatTs t_start>` directory the same run just
promoted, and the final listing's `current` symlink points at that now
nonexistent name. -/
theorem c10_zero_retention_deletes_fresh_backup (dest : List Char) (fs : DestFS)
    (t_start t_ret days : Int)
    (hdays : days ≤ 0) (hts : t_start ≤ t_ret)
    (hfail : fs.failing = []) (hnd : nodupNames fs)
    (hinc : findEntry fs (incompletePref ++ (backupPref ++ formatTs t_start)) =
      some ⟨incompletePref ++ (backupPref ++ formatTs t_start), .dir⟩)
    (hcomp : (listdir fs).contains (backupPref ++ formatTs t_start) = false)
    (hparse : parse_backup_time (dest ++ '/' :: (backupPref ++ formatTs t_start)) =
      some t_start) :
    t_start ≤ t_ret - 60 * 60 * 24 * days ∧
    (run_after_lock dest fs (formatTs t_start) 0 t_ret days).1 = .exitCode 0 ∧
    (∀ e ∈ (run_after_lock dest fs (formatTs t_start) 0 t_ret days).2.entries,
      e.name ≠ backupPref ++ formatTs t_start) ∧
    findEntry (run_after_lock dest fs (formatTs t_start) 0 t_ret days).2 currentName =
      some ⟨currentName, .symlink (backupPref ++ formatTs t_start)⟩ := by
  have hcutoff : t_start ≤ t_ret - 60 * 60 * 24 * days := by omega
  obtain ⟨hout, hmark, hfail5, hcase⟩ :=
    run_promote_cases dest fs (formatTs t_start) t_ret days hfail hnd hinc hcomp
  have hcompmem := contains_eq_false_iff.mp hcomp
  have hndP := promoted_nodup hnd hcompmem
  have hcompE := promoted_comp_mem hinc
  have hcurE := promoted_cur_mem fs (formatTs t_start)
  have hdelC : delCondOld dest (t_ret - 60 * 60 * 24 * days)
      ⟨backupPref ++ formatTs t_start, .dir⟩ = true := by
    unfold delCondOld isCompleteDir EntryKind.isDir
    simp [startswith_backup_comp, hparse]
    omega
  have hAcur : (⟨currentName, .symlink (backupPref ++ formatTs t_start)⟩ : Entry) ∈
      (promoted fs (formatTs t_start)).entries.filter
        (fun e => !delCondOld dest (t_ret - 60 * 60 * 24 * days) e) :=
    List.mem_filter.mpr ⟨hcurE, by rw [delCondOld_symlink]; rfl⟩
  have hndA : (((promoted fs (formatTs t_start)).entries.filter
      (fun e => !delCondOld dest (t_ret - 60 * 60 * 24 * days) e)).map Entry.name).Nodup :=
    List.Nodup.sublist (List.Sublist.map Entry.name (List.filter_sublist _)) hndP
  have hfacts : (⟨currentName, .symlink (backupPref ++ formatTs t_start)⟩ : Entry) ∈
        (run_after_lock dest fs (formatTs t_start) 0 t_ret days).2.entries ∧
      nodupNames (run_after_lock dest fs (formatTs t_start) 0 t_ret days).2 ∧
      (∀ e ∈ (run_after_lock dest fs (formatTs t_start) 0 t_ret days).2.entries,
        e ∈ (promoted fs (formatTs t_start)).entries.filter
          (fun e => !delCondOld dest (t_ret - 60 * 60 * 24 * days) e)) := by
    rcases hcase with hE | ⟨m, hE⟩
    · refine ⟨by rw [hE]; exact hAcur, ?_, ?_⟩
      · unfold nodupNames
        rw [hE]
        exact hndA
      · intro e he
        rw [hE] at he
        exact he
    · refine ⟨?_, ?_, ?_⟩
      · rw [hE]
        exact List.mem_filter.mpr ⟨hAcur, by rw [delCondInc_symlink]; rfl⟩
      · unfold nodupNames
        rw [hE]
        exact List.Nodup.sublist
          (List.Sublist.map Entry.name (List.filter_sublist _)) hndA
      · intro e he
        rw [hE] at he
        exact (List.mem_filter.mp he).1
  obtain ⟨h5cur, h5nd, h5sub⟩ := hfacts
  refine ⟨hcutoff, hout, ?_, findEntry_eq_of_mem h5nd h5cur⟩
  intro e he heq
  have heA := h5sub e he
  rcases List.mem_filter.mp heA with ⟨heP, hekeep⟩
  have hee : e = ⟨backupPref ++ formatTs t_start, .dir⟩ :=
    name_inj hndP heP hcompE heq
  rw [hee, hdelC] at hekeep
  cases hekeep

def c10fs : DestFS :=
  ⟨[⟨"incomplete-backup-2024-06-01T00:00:00".toList, .dir⟩],
   [], some (some (.json "2024-06-01T00:00:00".toList))⟩

theorem c10_zero_retention_deletes_fresh_backup_witness :
    (0 : Int) ≤ 0 ∧ (1717200000 : Int) ≤ 1717200000 ∧
    c10fs.failing = [] ∧ nodupNames c10fs ∧
    parse_backup_time (wdest ++ '/' :: (backupPref ++ formatTs 1717200000)) =
      some 1717200000 ∧
    (∀ e ∈ (run_after_lock wdest c10fs (formatTs 1717200000) 0 1717200000 0).2.entries,
      e.name ≠ backupPref ++ formatTs 1717200000) ∧
    findEntry (run_after_lock wdest c10fs (formatTs 1717200000) 0 1717200000 0).2
        currentName =
      some ⟨currentName, .symlink (backupPref ++ formatTs 1717200000)⟩ :=
  ⟨by decide, by decide, rfl, by decide, by decide,
   (c10_zero_retention_deletes_fresh_backup wdest c10fs 1717200000 1717200000 0
     (by decide) (by decide) rfl (by decide) (by decide) (by decide) (by decide)).2.2.1,
   (c10_zero_retention_deletes_fresh_backup wdest c10fs 1717200000 1717200000 0
     (by decide) (by decide) rfl (by decide) (by decide) (by decide) (by decide)).2.2.2⟩

end Backup
